import Mathlib

set_option maxRecDepth 100000

/-!
Verification of the `rct_progress` decoder/encoder core against its
natural-language specification.

The Python sources (`src/rct_progress/core.py` and
`src/rct_progress/highscores.py`) are shallowly embedded here:

* byte buffers (`bytes`, `bytearray`) become `List Nat`, with each element a
  byte value; Python strings are modelled as their encoded byte sequences
  (the codecs in play, latin-1 and UTF-8 with replacement, never fail and
  are external to the logic verified here);
* Python's unbounded integers become `Nat`/`Int`, with the source's explicit
  `& 0xFFFFFFFF` masks embedded as the corresponding bitwise operations;
* Python dicts (insertion-ordered, assignment replaces the value in place)
  become association lists with an in-place-update insert;
* fallible code returns `Except`/`Option`.

All definitions are executable; claims are settled by theorems below the
definitions.
-/

namespace RctProgress

/-! ### Bitwise helper lemmas

These convert the masking/shifting idioms of the Python source into plain
`%`/`/` arithmetic on `Nat`. -/

theorem shiftLeft_land_shiftLeft (a b k : Nat) :
    (a <<< k) &&& (b <<< k) = (a &&& b) <<< k := by
  apply Nat.eq_of_testBit_eq
  intro i
  simp only [Nat.testBit_and, Nat.testBit_shiftLeft]
  by_cases h : k ≤ i
  · simp [h]
  · simp [h]

theorem land_shiftLeft_eq_zero (k m : Nat) {r : Nat} (hr : r < 2 ^ k) :
    r &&& (m <<< k) = 0 := by
  apply Nat.eq_of_testBit_eq
  intro i
  simp only [Nat.testBit_and, Nat.testBit_shiftLeft, Nat.zero_testBit]
  by_cases h : k ≤ i
  · have hri : r.testBit i = false :=
      Nat.testBit_lt_two_pow (lt_of_lt_of_le hr (Nat.pow_le_pow_right (by norm_num) h))
    simp [hri]
  · simp [h]

theorem land_ff (x : Nat) : x &&& 0xFF = x % 256 := by
  have h := Nat.and_pow_two_sub_one_eq_mod x 8
  norm_num at h
  exact h

theorem land_mask32 (x : Nat) : x &&& 0xFFFFFFFF = x % 4294967296 := by
  have h := Nat.and_pow_two_sub_one_eq_mod x 32
  norm_num at h
  exact h

theorem land_mask_hi (x : Nat) (hx : x < 4294967296) :
    x &&& 0xFFFFFF00 = 256 * (x / 256) := by
  have h256 : (2 : Nat) ^ 8 = 256 := by norm_num
  have hsplit : 256 * (x / 256) + x % 256 = x := by omega
  have hor : 256 * (x / 256) + x % 256 = 256 * (x / 256) ||| x % 256 := by
    have h := Nat.mul_add_lt_is_or (show x % 256 < 2 ^ 8 by omega) (x / 256)
    rw [h256] at h
    exact h
  have hm : (0xFFFFFF00 : Nat) = 0xFFFFFF <<< 8 := by
    norm_num [Nat.shiftLeft_eq]
  conv_lhs => rw [← hsplit, hor]
  rw [hm, Nat.and_distrib_right]
  have h1 : (256 * (x / 256)) &&& (0xFFFFFF <<< 8) = 256 * (x / 256) := by
    have hsh : (256 : Nat) * (x / 256) = (x / 256) <<< 8 := by
      rw [Nat.shiftLeft_eq]; ring
    rw [hsh, shiftLeft_land_shiftLeft]
    have hq : (x / 256) &&& 0xFFFFFF = x / 256 := by
      have h2 := Nat.and_pow_two_sub_one_eq_mod (x / 256) 24
      norm_num at h2
      rw [h2]
      omega
    rw [hq]
  have h2 : (x % 256) &&& (0xFFFFFF <<< 8) = 0 :=
    land_shiftLeft_eq_zero 8 0xFFFFFF (show x % 256 < 2 ^ 8 by omega)
  rw [h1, h2, Nat.or_zero]

/-! ### `core.py`: rotl32 and the checksum -/

/-- Embeds `rotl32` from `core.py`: rotate a 32-bit integer left by `n`
bits, `((x << n) | (x >> (32 - n))) & MASK32`. -/
def rotl32 (x n : Nat) : Nat :=
  ((x <<< n) ||| (x >>> (32 - n))) &&& 0xFFFFFFFF

theorem rotl32_lt (x n : Nat) : rotl32 x n < 4294967296 := by
  unfold rotl32
  rw [land_mask32]
  omega

theorem rotl32_three (x : Nat) (hx : x < 4294967296) :
    rotl32 x 3 = (x % 536870912) * 8 + x / 536870912 := by
  unfold rotl32
  rw [Nat.shiftLeft_eq, Nat.shiftRight_eq_div_pow]
  have hor : 2 ^ 3 * x + x / 2 ^ (32 - 3) = 2 ^ 3 * x ||| x / 2 ^ (32 - 3) :=
    Nat.mul_add_lt_is_or (show x / 2 ^ (32 - 3) < 2 ^ 3 by omega) x
  have hmul : x * 2 ^ 3 = 2 ^ 3 * x := by ring
  rw [hmul, ← hor, land_mask32]
  omega

theorem rotl32_five (x : Nat) (hx : x < 4294967296) :
    rotl32 x 5 = (x % 134217728) * 32 + x / 134217728 := by
  unfold rotl32
  rw [Nat.shiftLeft_eq, Nat.shiftRight_eq_div_pow]
  have hor : 2 ^ 5 * x + x / 2 ^ (32 - 5) = 2 ^ 5 * x ||| x / 2 ^ (32 - 5) :=
    Nat.mul_add_lt_is_or (show x / 2 ^ (32 - 5) < 2 ^ 5 by omega) x
  have hmul : x * 2 ^ 5 = 2 ^ 5 * x := by ring
  rw [hmul, ← hor, land_mask32]
  omega

theorem rotl32_twentyseven (x : Nat) (hx : x < 4294967296) :
    rotl32 x 27 = (x % 32) * 134217728 + x / 32 := by
  unfold rotl32
  rw [Nat.shiftLeft_eq, Nat.shiftRight_eq_div_pow]
  have hor : 2 ^ 27 * x + x / 2 ^ (32 - 27) = 2 ^ 27 * x ||| x / 2 ^ (32 - 27) :=
    Nat.mul_add_lt_is_or (show x / 2 ^ (32 - 27) < 2 ^ 27 by omega) x
  have hmul : x * 2 ^ 27 = 2 ^ 27 * x := by ring
  rw [hmul, ← hor, land_mask32]
  omega

theorem rotl32_27_then_5 (x : Nat) (hx : x < 4294967296) :
    rotl32 (rotl32 x 27) 5 = x := by
  rw [rotl32_twentyseven x hx, rotl32_five _ (by omega)]
  omega

theorem rotl32_5_then_27 (x : Nat) (hx : x < 4294967296) :
    rotl32 (rotl32 x 5) 27 = x := by
  rw [rotl32_five x hx, rotl32_twentyseven _ (by omega)]
  omega

/-- Embeds the loop body of `verify_checksum` from `core.py`:
`low = ((total & 0xFF) + byte) & 0xFF;
total = ((total & 0xFFFFFF00) | low) & MASK32; total = rotl32(total, 3)`. -/
def checksumStep (total b : Nat) : Nat :=
  rotl32 (((total &&& 0xFFFFFF00) ||| (((total &&& 0xFF) + b) &&& 0xFF)) &&& 0xFFFFFFFF) 3

/-- Embeds `verify_checksum` from `core.py`: fold `checksumStep` over the
data, add `CHECKSUM_FINAL_ADD = 120001`, mask to 32 bits, and compare with
the expected value, returning `(is_valid, calculated_checksum)`. -/
def verify_checksum (data : List Nat) (expected : Nat) : Bool × Nat :=
  ((data.foldl checksumStep 0 + 120001) &&& 0xFFFFFFFF == expected,
    (data.foldl checksumStep 0 + 120001) &&& 0xFFFFFFFF)

/-- Spec-side reading of one checksum round, translated from the words of
the claim: replace the low 8 bits of the accumulator by
`(low8 + b) mod 256`, keep the upper 24 bits, then rotate the full 32-bit
accumulator left by 3 bits (here written as exact arithmetic:
`536870912 = 2 ^ 29`). -/
def checksumSpecStep (acc b : Nat) : Nat :=
  ((acc / 256) * 256 + (acc % 256 + b) % 256) % 536870912 * 8 +
    ((acc / 256) * 256 + (acc % 256 + b) % 256) / 536870912

/-- Spec-side checksum value: fold `checksumSpecStep` from 0 and finally
add `120001 mod 2 ^ 32`. -/
def checksumSpec (data : List Nat) : Nat :=
  (data.foldl checksumSpecStep 0 + 120001) % 4294967296

theorem checksumStep_eq (t b : Nat) (ht : t < 4294967296) :
    checksumStep t b = checksumSpecStep t b := by
  unfold checksumStep checksumSpecStep
  rw [land_ff t, land_ff ((t % 256) + b), land_mask_hi t ht]
  have h256 : (2 : Nat) ^ 8 = 256 := by norm_num
  have hor : 256 * (t / 256) ||| (t % 256 + b) % 256 =
      256 * (t / 256) + (t % 256 + b) % 256 := by
    have h := Nat.mul_add_lt_is_or (show (t % 256 + b) % 256 < 2 ^ 8 by omega) (t / 256)
    rw [h256] at h
    exact h.symm
  rw [hor, land_mask32, Nat.mod_eq_of_lt (by omega), rotl32_three _ (by omega)]
  omega

theorem checksum_foldl_eq (data : List Nat) :
    ∀ t, t < 4294967296 →
      data.foldl checksumStep t = data.foldl checksumSpecStep t ∧
      data.foldl checksumSpecStep t < 4294967296 := by
  induction data with
  | nil => intro t ht; exact ⟨rfl, ht⟩
  | cons b rest ih =>
    intro t ht
    have hlt : checksumSpecStep t b < 4294967296 := by
      unfold checksumSpecStep
      omega
    simp only [List.foldl_cons]
    rw [checksumStep_eq t b ht]
    exact ih (checksumSpecStep t b) hlt

/-- C1: `verify_checksum(body, expected)` equals the claimed fold: start a
32-bit accumulator at 0; per byte, replace the low 8 bits by
`(low8 + b) mod 256` leaving the upper 24 bits untouched, then rotate the
whole accumulator left by 3 bits; finally add `120001 mod 2 ^ 32`.  The
function returns the pair `(isValid, calculated)` and `isValid` holds iff
`expected` equals the computed value.  It is a pure Lean function, hence
deterministic. -/
theorem checksum_matches_spec_C1 (data : List Nat) (expected : Nat) :
    verify_checksum data expected = (checksumSpec data == expected, checksumSpec data) ∧
    ((verify_checksum data expected).1 = true ↔ expected = checksumSpec data) := by
  have h := checksum_foldl_eq data 0 (by norm_num)
  unfold verify_checksum checksumSpec
  rw [land_mask32, h.1]
  exact ⟨rfl, ⟨fun hh => (beq_iff_eq.mp hh).symm, fun hh => beq_iff_eq.mpr hh.symm⟩⟩

/-! ### `core.py`: RLE decompression -/

/-- Embeds the `while i < len(body)` loop of `rle_decompress` from
`core.py`, with `i` the current read index.  A control byte `b < 128` is
the signed value `sb = b ≥ 0`: copy the next `sb + 1 = b + 1` bytes, or
whatever remains if the run would overrun (then stop).  A control byte
`b ≥ 128` is `sb = b - 256 < 0`: read one value byte (stopping if it is
missing) and emit it `1 - sb = 257 - b` times. -/
def rleLoop (body : List Nat) (i : Nat) : List Nat :=
  if h : i < body.length then
    if body[i] < 128 then
      if i + 1 + (body[i] + 1) > body.length then body.drop (i + 1)
      else (body.drop (i + 1)).take (body[i] + 1) ++ rleLoop body (i + 1 + (body[i] + 1))
    else
      if h2 : i + 1 < body.length then
        List.replicate (257 - body[i]) body[i + 1] ++ rleLoop body (i + 1 + 1)
      else []
  else []
termination_by body.length - i
decreasing_by
  · omega
  · omega

/-- Embeds `rle_decompress` from `core.py`: inputs shorter than 4 bytes
yield empty output; otherwise the trailing 4 checksum bytes are stripped
and the control-byte loop runs over the remaining body from index 0. -/
def rle_decompress (data : List Nat) : List Nat :=
  if data.length < 4 then []
  else rleLoop (data.take (data.length - 4)) 0

/-- Spec-side RLE decompressor, translated from the words of the claim:
read one control byte, interpreted as signed 8-bit `c`; if `c ≥ 0`
(byte < 128) copy the next `c + 1` bytes verbatim, copying only what
remains and stopping if the run would read past the end; if `c < 0`
(byte ≥ 128) read one following value byte and append it replicated
`1 - c = 257 - byte` times, stopping without emitting if the value byte
is missing. -/
def rleSpec : List Nat → List Nat
  | [] => []
  | c :: rest =>
    if c < 128 then
      if rest.length < c + 1 then rest
      else rest.take (c + 1) ++ rleSpec (rest.drop (c + 1))
    else
      match rest with
      | [] => []
      | v :: rest2 => List.replicate (257 - c) v ++ rleSpec rest2
termination_by l => l.length
decreasing_by
  · simp
    omega
  · simp
    omega

theorem rleSpec_nil : rleSpec [] = [] := by
  rw [rleSpec.eq_def]

theorem rleSpec_cons (c : Nat) (rest : List Nat) :
    rleSpec (c :: rest) =
      if c < 128 then
        if rest.length < c + 1 then rest
        else rest.take (c + 1) ++ rleSpec (rest.drop (c + 1))
      else
        match rest with
        | [] => []
        | v :: rest2 => List.replicate (257 - c) v ++ rleSpec rest2 := by
  rw [rleSpec.eq_def]

theorem rleLoop_eq_rleSpec :
    ∀ (fuel : Nat) (body : List Nat) (i : Nat), body.length - i ≤ fuel →
      rleLoop body i = rleSpec (body.drop i) := by
  intro fuel
  induction fuel with
  | zero =>
    intro body i h
    rw [rleLoop]
    rw [dif_neg (by omega), List.drop_eq_nil_of_le (by omega), rleSpec_nil]
  | succ n ih =>
    intro body i h
    rw [rleLoop]
    by_cases hi : i < body.length
    · rw [dif_pos hi]
      have hdrop : body.drop i = body[i] :: body.drop (i + 1) :=
        List.drop_eq_getElem_cons hi
      rw [hdrop, rleSpec_cons]
      by_cases hb : body[i] < 128
      · rw [if_pos hb, if_pos hb]
        have hrest : (body.drop (i + 1)).length = body.length - (i + 1) := by simp
        by_cases hover : i + 1 + (body[i] + 1) > body.length
        · rw [if_pos hover, if_pos (by omega)]
        · rw [if_neg hover, if_neg (by omega)]
          rw [ih body (i + 1 + (body[i] + 1)) (by omega)]
          rw [List.drop_drop]
      · rw [if_neg hb, if_neg hb]
        by_cases h2 : i + 1 < body.length
        · rw [dif_pos h2]
          have hdrop2 : body.drop (i + 1) = body[i + 1] :: body.drop (i + 1 + 1) :=
            List.drop_eq_getElem_cons h2
          rw [hdrop2]
          rw [ih body (i + 1 + 1) (by omega)]
        · rw [dif_neg h2]
          rw [List.drop_eq_nil_of_le (by omega)]
    · rw [dif_neg hi]
      rw [List.drop_eq_nil_of_le (by omega), rleSpec_nil]

/-- C2: on an input consisting of a compressed body followed by the 4
trailing checksum bytes (which `rle_decompress` strips), the decompressor
computes exactly the spec-side control-byte interpretation `rleSpec` of
the body: signed control byte `c`, literal runs of `c + 1` bytes clamped
at end of input, repeat runs of `1 - c` copies of the value byte, stopping
without output when the value byte is missing.  Both functions are total
Lean functions over arbitrary byte lists (including empty and truncated
inputs), so termination and absence of out-of-bounds access or exceptions
hold by construction. -/
theorem rle_decompress_matches_spec_C2 (body : List Nat) (c0 c1 c2 c3 : Nat) :
    rle_decompress (body ++ [c0, c1, c2, c3]) = rleSpec body := by
  unfold rle_decompress
  have hlen : (body ++ [c0, c1, c2, c3]).length = body.length + 4 := by simp
  rw [if_neg (by omega)]
  have htake : (body ++ [c0, c1, c2, c3]).length - 4 = body.length := by omega
  rw [htake, List.take_left]
  rw [rleLoop_eq_rleSpec body.length body 0 (by omega), List.drop_zero]

/-! ### `core.py`: word decryption -/

/-- Little-endian byte decoding, as `int.from_bytes(chunk, "little")` and
`struct.unpack("<I", chunk)` do. -/
def decodeLE : List Nat → Nat
  | [] => 0
  | b :: rest => b + 256 * decodeLE rest

/-- Little-endian encoding of `n` into `k` bytes, as `struct.pack` does
for in-range values. -/
def bytesLE : Nat → Nat → List Nat
  | 0, _ => []
  | k + 1, n => n % 256 :: bytesLE k (n / 256)

/-- Embeds the per-word decryption inside `decrypt_dwords_le` from
`core.py`: `tmp = rotl32(w, 5); plain = (tmp - MAGIC_ADD) & MASK32` with
`MAGIC_ADD = 0x39393939`.  Python subtracts over the unbounded integers
and then masks, which is subtraction modulo `2 ^ 32`. -/
def decrypt_word (w : Nat) : Nat :=
  (((rotl32 w 5 : Int) - 0x39393939) % 4294967296).toNat

/-- Embeds `decrypt_dwords_le` from `core.py`: process the buffer in
non-overlapping 4-byte little-endian words; a trailing chunk of fewer
than 4 bytes is copied unchanged. -/
def decrypt_dwords_le : List Nat → List Nat
  | b0 :: b1 :: b2 :: b3 :: rest =>
    bytesLE 4 (decrypt_word (decodeLE [b0, b1, b2, b3])) ++ decrypt_dwords_le rest
  | rest => rest

/-- Modelled from the spec: `rotateRight32(x, n)` (the conceptual inverse
rotation of §4.3, quoted by the claim; it exists in the repository only as
the spec's round-trip companion).  Rotating a 32-bit word right by `n` is
rotating it left by `32 - n`. -/
def rotr32 (x n : Nat) : Nat := rotl32 x (32 - n)

/-- Modelled from the spec: per-word encryption
`cipher = rotateRight32((plain + 0x39393939) mod 2^32, 5)`. -/
def encrypt_word (p : Nat) : Nat := rotr32 ((p + 0x39393939) % 4294967296) 5

/-- Modelled from the spec: word-wise encryption of a buffer, 4-byte
little-endian words, trailing remainder unchanged. -/
def encrypt_dwords_le : List Nat → List Nat
  | b0 :: b1 :: b2 :: b3 :: rest =>
    bytesLE 4 (encrypt_word (decodeLE [b0, b1, b2, b3])) ++ encrypt_dwords_le rest
  | rest => rest

theorem bytesLE_length (k : Nat) : ∀ n, (bytesLE k n).length = k := by
  induction k with
  | zero => intro n; rfl
  | succ m ih => intro n; simp [bytesLE, ih]

theorem decodeLE_bytesLE_four (n : Nat) (h : n < 4294967296) :
    decodeLE (bytesLE 4 n) = n := by
  simp [bytesLE, decodeLE]
  omega

theorem bytesLE_decodeLE_four (b0 b1 b2 b3 : Nat)
    (h0 : b0 < 256) (h1 : b1 < 256) (h2 : b2 < 256) (h3 : b3 < 256) :
    bytesLE 4 (decodeLE [b0, b1, b2, b3]) = [b0, b1, b2, b3] := by
  simp [bytesLE, decodeLE]
  omega

theorem decodeLE_four_lt (b0 b1 b2 b3 : Nat)
    (h0 : b0 < 256) (h1 : b1 < 256) (h2 : b2 < 256) (h3 : b3 < 256) :
    decodeLE [b0, b1, b2, b3] < 4294967296 := by
  simp [decodeLE]
  omega

theorem decrypt_word_lt (w : Nat) : decrypt_word w < 4294967296 := by
  unfold decrypt_word
  omega

theorem encrypt_word_lt (p : Nat) : encrypt_word p < 4294967296 := by
  unfold encrypt_word rotr32
  exact rotl32_lt _ _

theorem decrypt_encrypt_word (p : Nat) (hp : p < 4294967296) :
    decrypt_word (encrypt_word p) = p := by
  unfold decrypt_word encrypt_word rotr32
  rw [show (32 - 5 : Nat) = 27 from rfl,
    rotl32_27_then_5 _ (Nat.mod_lt _ (by norm_num))]
  omega

theorem encrypt_decrypt_word (w : Nat) (hw : w < 4294967296) :
    encrypt_word (decrypt_word w) = w := by
  unfold encrypt_word decrypt_word rotr32
  have hx := rotl32_lt w 5
  have harg : ((((rotl32 w 5 : Int) - 0x39393939) % 4294967296).toNat + 0x39393939) %
      4294967296 = rotl32 w 5 := by omega
  rw [harg, show (32 - 5 : Nat) = 27 from rfl, rotl32_5_then_27 w hw]

theorem decrypt_append_four (c rest : List Nat) (hc : c.length = 4) :
    decrypt_dwords_le (c ++ rest) =
      bytesLE 4 (decrypt_word (decodeLE c)) ++ decrypt_dwords_le rest := by
  match c, hc with
  | [x0, x1, x2, x3], _ => rfl

theorem decrypt_encrypt_aux :
    ∀ (n : Nat) (data : List Nat), data.length = 4 * n → (∀ b ∈ data, b < 256) →
      decrypt_dwords_le (encrypt_dwords_le data) = data := by
  intro n
  induction n with
  | zero =>
    intro data hlen _
    have : data = [] := List.eq_nil_of_length_eq_zero (by omega)
    subst this
    rfl
  | succ m ih =>
    intro data hlen hb
    match data, hlen with
    | b0 :: b1 :: b2 :: b3 :: rest, hlen =>
      have hb0 : b0 < 256 := hb b0 (by simp)
      have hb1 : b1 < 256 := hb b1 (by simp)
      have hb2 : b2 < 256 := hb b2 (by simp)
      have hb3 : b3 < 256 := hb b3 (by simp)
      have hw : decodeLE [b0, b1, b2, b3] < 4294967296 :=
        decodeLE_four_lt b0 b1 b2 b3 hb0 hb1 hb2 hb3
      have henc : encrypt_dwords_le (b0 :: b1 :: b2 :: b3 :: rest) =
          bytesLE 4 (encrypt_word (decodeLE [b0, b1, b2, b3])) ++
            encrypt_dwords_le rest := rfl
      rw [henc, decrypt_append_four _ _ (bytesLE_length 4 _),
        decodeLE_bytesLE_four _ (encrypt_word_lt _),
        decrypt_encrypt_word _ hw,
        bytesLE_decodeLE_four b0 b1 b2 b3 hb0 hb1 hb2 hb3,
        ih rest (by simp only [List.length_cons] at hlen; omega)
          (fun b hbm => hb b (by simp [hbm]))]
      rfl

theorem decrypt_short (rest : List Nat) (h : rest.length < 4) :
    decrypt_dwords_le rest = rest := by
  match rest, h with
  | [], _ => rfl
  | [a], _ => rfl
  | [a, b], _ => rfl
  | [a, b, c], _ => rfl

theorem decrypt_length (data : List Nat) :
    (decrypt_dwords_le data).length = data.length := by
  induction data using decrypt_dwords_le.induct with
  | case1 b0 b1 b2 b3 rest ih =>
    show (bytesLE 4 _ ++ decrypt_dwords_le rest).length = _
    rw [List.length_append, bytesLE_length, ih]
    simp only [List.length_cons]
    omega
  | case2 rest h =>
    rcases rest with _ | ⟨x0, _ | ⟨x1, _ | ⟨x2, _ | ⟨x3, r⟩⟩⟩⟩
    · rfl
    · rfl
    · rfl
    · rfl
    · exact absurd rfl (h x0 x1 x2 x3 r)

theorem drop_four_append (l1 l2 : List Nat) (i : Nat) (hl : l1.length = 4) :
    (l1 ++ l2).drop (4 + i) = l2.drop i := by
  rw [← hl, List.drop_append]

theorem decrypt_remainder (data : List Nat) :
    (decrypt_dwords_le data).drop (4 * (data.length / 4)) =
      data.drop (4 * (data.length / 4)) := by
  induction data using decrypt_dwords_le.induct with
  | case1 b0 b1 b2 b3 rest ih =>
    have hq : 4 * ((b0 :: b1 :: b2 :: b3 :: rest).length / 4) =
        4 + 4 * (rest.length / 4) := by
      simp only [List.length_cons]
      omega
    rw [hq]
    rw [show decrypt_dwords_le (b0 :: b1 :: b2 :: b3 :: rest) =
      bytesLE 4 (decrypt_word (decodeLE [b0, b1, b2, b3])) ++ decrypt_dwords_le rest
      from rfl]
    rw [drop_four_append _ _ _ (bytesLE_length 4 _)]
    rw [show (b0 :: b1 :: b2 :: b3 :: rest) = [b0, b1, b2, b3] ++ rest from rfl]
    rw [drop_four_append [b0, b1, b2, b3] rest _ (by simp)]
    exact ih
  | case2 rest h =>
    rcases rest with _ | ⟨x0, _ | ⟨x1, _ | ⟨x2, _ | ⟨x3, r⟩⟩⟩⟩
    · rfl
    · rfl
    · rfl
    · rfl
    · exact absurd rfl (h x0 x1 x2 x3 r)


/-- C3: the decryptor processes its input in non-overlapping 4-byte
little-endian words, mapping each word `w` to
`(rotl32(w, 5) - 0x39393939) mod 2^32` (that is `decrypt_word`), copies a
trailing remainder of 1 to 3 bytes unchanged so that output length equals
input length, round-trips with the spec's encryption on every 4-byte
aligned byte buffer, and the per-word transform is a bijection on 32-bit
words (two-sided inverse of `encrypt_word`). -/
theorem decrypt_dwords_le_spec_C3 :
    (∀ data : List Nat, (decrypt_dwords_le data).length = data.length) ∧
    (∀ data : List Nat,
      (decrypt_dwords_le data).drop (4 * (data.length / 4)) =
        data.drop (4 * (data.length / 4))) ∧
    (∀ b0 b1 b2 b3 rest,
      decrypt_dwords_le (b0 :: b1 :: b2 :: b3 :: rest) =
        bytesLE 4 (decrypt_word (decodeLE [b0, b1, b2, b3])) ++ decrypt_dwords_le rest) ∧
    (∀ w, w < 4294967296 →
      decrypt_word w < 4294967296 ∧ encrypt_word (decrypt_word w) = w ∧
        decrypt_word (encrypt_word w) = w) ∧
    (∀ data : List Nat, data.length % 4 = 0 → (∀ b ∈ data, b < 256) →
      decrypt_dwords_le (encrypt_dwords_le data) = data) := by
  refine ⟨decrypt_length, decrypt_remainder, fun _ _ _ _ _ => rfl, ?_, ?_⟩
  · intro w hw
    exact ⟨decrypt_word_lt w, encrypt_decrypt_word w hw, decrypt_encrypt_word w hw⟩
  · intro data hlen hb
    exact decrypt_encrypt_aux (data.length / 4) data (by omega) hb

/-- Witness for C3 at concrete inputs: the buffer round-trip at
`[1, 2, 3, 4]` and the word-level two-sided inverse at `w = 7`. -/
theorem decrypt_dwords_le_spec_C3_witness :
    decrypt_dwords_le (encrypt_dwords_le [1, 2, 3, 4]) = [1, 2, 3, 4] ∧
    encrypt_word (decrypt_word 7) = 7 := by
  refine ⟨decrypt_dwords_le_spec_C3.2.2.2.2 [1, 2, 3, 4] (by decide) (by decide), ?_⟩
  exact (decrypt_dwords_le_spec_C3.2.2.2.1 7 (by norm_num)).2.1

/-! ### `core.py`: fixed-offset table parsing -/

/-- Embeds the loop of `read_fixed_strings` from `core.py`: starting at
entry index `i` with `cnt` iterations remaining, stop as soon as
`off + i * size` reaches the end of the buffer, otherwise emit the bytes
of the `size`-byte block before its first 0 byte (latin-1 decoding is a
byte-to-character bijection and is left implicit). -/
def read_fixed_aux (data : List Nat) (off size : Nat) : Nat → Nat → List (List Nat)
  | _, 0 => []
  | i, cnt + 1 =>
    if off + i * size ≥ data.length then []
    else ((data.drop (off + i * size)).take size).takeWhile (fun b => b != 0) ::
      read_fixed_aux data off size (i + 1) cnt

/-- Embeds `read_fixed_strings` from `core.py`. -/
def read_fixed_strings (data : List Nat) (off cnt size : Nat) : List (List Nat) :=
  read_fixed_aux data off size 0 cnt

/-- Signed reading of a 32-bit little-endian word, as
`struct.unpack_from("<i", ...)`. -/
def sint32 (u : Nat) : Int :=
  if u ≥ 2147483648 then (u : Int) - 4294967296 else (u : Int)

/-- Embeds the loop of `read_dwords_le_signed` from `core.py`: stop as
soon as the next 4-byte read would pass the end of the buffer. -/
def read_dwords_aux (data : List Nat) (off : Nat) : Nat → Nat → List Int
  | _, 0 => []
  | i, cnt + 1 =>
    if off + i * 4 + 4 > data.length then []
    else sint32 (decodeLE ((data.drop (off + i * 4)).take 4)) ::
      read_dwords_aux data off (i + 1) cnt

/-- Embeds `read_dwords_le_signed` from `core.py`. -/
def read_dwords_le_signed (data : List Nat) (off cnt : Nat) : List Int :=
  read_dwords_aux data off 0 cnt

/-- Embeds the `Row` TypedDict of `core.py`; `company_value` is
`int | None`. -/
structure Row where
  index : Nat
  filename : List Nat
  name : List Nat
  company_value : Option Int
  winner : List Nat
deriving DecidableEq

/-- The filename table of `parse_tables` from `core.py`:
`max_files = min(max(0, (total - 0x0000) // 16), 128)`. -/
def filesOf (d : List Nat) : List (List Nat) :=
  read_fixed_strings d 0 (min (max 0 ((d.length - 0) / 16)) 128) 16

/-- The scenario-name table of `parse_tables` from `core.py`: count
`min(128, (total - 0x0800) // 64)` when `total > 0x0800`, else 0. -/
def namesOf (d : List Nat) : List (List Nat) :=
  read_fixed_strings d 0x800
    (if d.length > 0x800 then min 128 ((d.length - 0x800) / 64) else 0) 64

/-- The company-value table of `parse_tables` from `core.py`: count
`min(128, (total - 0x2800) // 4)` when `total > 0x2800`, else empty. -/
def compsOf (d : List Nat) : List Int :=
  if d.length > 0x2800 then
    read_dwords_le_signed d 0x2800 (min 128 ((d.length - 0x2800) / 4))
  else []

/-- The winner table of `parse_tables` from `core.py`: count
`min(128, (total - 0x2A00) // 32)` when `total > 0x2A00`, else empty. -/
def winsOf (d : List Nat) : List (List Nat) :=
  if d.length > 0x2A00 then
    read_fixed_strings d 0x2A00 (min 128 ((d.length - 0x2A00) / 32)) 32
  else []

/-- Embeds the row-building loop of `parse_tables` from `core.py`: the
row count is the maximum of the four table lengths; a missing text entry
becomes the empty string and a missing company value becomes `None`. -/
def parse_tables (d : List Nat) : List Row :=
  (List.range
      (max (max (max (filesOf d).length (namesOf d).length) (compsOf d).length)
        (winsOf d).length)).map
    (fun i =>
      { index := i, filename := (filesOf d).getD i [], name := (namesOf d).getD i [],
        company_value := (compsOf d)[i]?, winner := (winsOf d).getD i [] })

/-- Spec-side per-table entry count, from the words of the claim:
`0` if the buffer length is at most the table offset, else
`min 128 ((L - offset) / entrySize)`. -/
def specCount (L off size : Nat) : Nat :=
  if L ≤ off then 0 else min 128 ((L - off) / size)

theorem read_fixed_aux_length (data : List Nat) (off size : Nat) :
    ∀ cnt i, (∀ j, j < cnt → off + (i + j) * size < data.length) →
      (read_fixed_aux data off size i cnt).length = cnt := by
  intro cnt
  induction cnt with
  | zero => intro i _; rfl
  | succ m ih =>
    intro i hj
    have h0 : off + i * size < data.length := by
      have := hj 0 (by omega)
      simpa using this
    rw [read_fixed_aux, if_neg (by omega), List.length_cons,
      ih (i + 1) (fun j hjm => by
        have h2 := hj (j + 1) (by omega)
        have he : i + (j + 1) = i + 1 + j := by omega
        rw [he] at h2
        exact h2)]

theorem read_dwords_aux_length (data : List Nat) (off : Nat) :
    ∀ cnt i, (∀ j, j < cnt → off + (i + j) * 4 + 4 ≤ data.length) →
      (read_dwords_aux data off i cnt).length = cnt := by
  intro cnt
  induction cnt with
  | zero => intro i _; rfl
  | succ m ih =>
    intro i hj
    have h0 : off + i * 4 + 4 ≤ data.length := by
      have := hj 0 (by omega)
      simpa using this
    rw [read_dwords_aux, if_neg (by omega), List.length_cons,
      ih (i + 1) (fun j hjm => by
        have h2 := hj (j + 1) (by omega)
        have he : i + (j + 1) = i + 1 + j := by omega
        rw [he] at h2
        exact h2)]

theorem filesOf_length (d : List Nat) : (filesOf d).length = specCount d.length 0 16 := by
  unfold filesOf read_fixed_strings specCount
  rw [read_fixed_aux_length]
  · split_ifs <;> omega
  · intro j hj
    omega

theorem namesOf_length (d : List Nat) :
    (namesOf d).length = specCount d.length 0x800 64 := by
  unfold namesOf read_fixed_strings specCount
  by_cases h : d.length > 0x800
  · rw [if_pos h, if_neg (by omega), read_fixed_aux_length]
    intro j hj
    omega
  · rw [if_neg h, if_pos (by omega)]
    rfl

theorem compsOf_length (d : List Nat) :
    (compsOf d).length = specCount d.length 0x2800 4 := by
  unfold compsOf read_dwords_le_signed specCount
  by_cases h : d.length > 0x2800
  · rw [if_pos h, if_neg (by omega), read_dwords_aux_length]
    intro j hj
    omega
  · rw [if_neg h, if_pos (by omega)]
    rfl

theorem winsOf_length (d : List Nat) :
    (winsOf d).length = specCount d.length 0x2A00 32 := by
  unfold winsOf read_fixed_strings specCount
  by_cases h : d.length > 0x2A00
  · rw [if_pos h, if_neg (by omega), read_fixed_aux_length]
    intro j hj
    omega
  · rw [if_neg h, if_pos (by omega)]
    rfl

/-- C4: the table parser extracts, per table, exactly
`min 128 ((L - offset) / entrySize)` entries (`0` when `L ≤ offset`) at
the layout constants `0x0000/16`, `0x0800/64`, `0x2800/4` and `0x2A00/32`;
the number of output rows is the maximum of the four extracted counts;
each row carries its own index, and a row index at or beyond a table's
extracted count yields an empty text field or an absent (`none`, not
zero) company value, while an index within the company count yields a
present value.  All extraction is by total `take`/`drop`/`getD` list
operations, so no access beyond the buffer occurs by construction. -/
theorem parse_tables_spec_C4 (data : List Nat) :
    ((parse_tables data).length =
      max (max (specCount data.length 0 16) (specCount data.length 0x800 64))
        (max (specCount data.length 0x2800 4) (specCount data.length 0x2A00 32))) ∧
    ∀ i (h : i < (parse_tables data).length),
      ((parse_tables data).get ⟨i, h⟩).index = i ∧
      (specCount data.length 0 16 ≤ i →
        ((parse_tables data).get ⟨i, h⟩).filename = []) ∧
      (specCount data.length 0x800 64 ≤ i →
        ((parse_tables data).get ⟨i, h⟩).name = []) ∧
      (specCount data.length 0x2800 4 ≤ i →
        ((parse_tables data).get ⟨i, h⟩).company_value = none) ∧
      (i < specCount data.length 0x2800 4 →
        (((parse_tables data).get ⟨i, h⟩).company_value).isSome = true) ∧
      (specCount data.length 0x2A00 32 ≤ i →
        ((parse_tables data).get ⟨i, h⟩).winner = []) := by
  have hf := filesOf_length data
  have hn := namesOf_length data
  have hc := compsOf_length data
  have hw := winsOf_length data
  constructor
  · simp only [parse_tables, List.length_map, List.length_range]
    rw [hf, hn, hc, hw]
    omega
  · intro i h
    have hget : (parse_tables data).get ⟨i, h⟩ =
        { index := i, filename := (filesOf data).getD i [],
          name := (namesOf data).getD i [], company_value := (compsOf data)[i]?,
          winner := (winsOf data).getD i [] } := by
      simp [parse_tables]
    rw [hget]
    refine ⟨rfl, ?_, ?_, ?_, ?_, ?_⟩
    · intro hi
      exact List.getD_eq_default _ _ (by omega)
    · intro hi
      exact List.getD_eq_default _ _ (by omega)
    · intro hi
      exact List.getElem?_eq_none_iff.mpr (by omega)
    · intro hi
      rw [List.getElem?_eq_getElem (by omega)]
      rfl
    · intro hi
      exact List.getD_eq_default _ _ (by omega)

/-- Witness for C4 on a concrete 40-byte buffer: two filename entries are
extracted, all other tables are empty, and row 0 has index 0 and an
absent company value. -/
theorem parse_tables_spec_C4_witness :
    (parse_tables (List.replicate 40 1)).length =
      max (max (specCount (List.replicate 40 1).length 0 16)
          (specCount (List.replicate 40 1).length 0x800 64))
        (max (specCount (List.replicate 40 1).length 0x2800 4)
          (specCount (List.replicate 40 1).length 0x2A00 32)) ∧
    ∃ h : 0 < (parse_tables (List.replicate 40 1)).length,
      ((parse_tables (List.replicate 40 1)).get ⟨0, h⟩).index = 0 ∧
      ((parse_tables (List.replicate 40 1)).get ⟨0, h⟩).company_value = none := by
  have H := parse_tables_spec_C4 (List.replicate 40 1)
  have h0 : 0 < (parse_tables (List.replicate 40 1)).length := by
    rw [H.1]
    decide
  exact ⟨H.1, h0, (H.2 0 h0).1, (H.2 0 h0).2.2.2.1 (by decide)⟩

/-! ### `highscores.py`: strings, numeric coercion and the data model

Python strings are modelled as byte lists.  `str.lower()` and
`str.strip()` are modelled at the byte level (ASCII case folding and
ASCII whitespace), which is exact for the ASCII data this program
handles.  `pathlib.Path(...).name` is modelled with POSIX separators. -/

/-- `INT64_MIN` from `highscores.py`, the sentinel timestamp. -/
def INT64_MIN : Int := -9223372036854775808

/-- Byte-level model of Python `str.lower()`: fold ASCII capitals. -/
def lowerByte (c : Nat) : Nat := if 65 ≤ c ∧ c ≤ 90 then c + 32 else c

/-- Lowercasing of a modelled string. -/
def lowerBytes (s : List Nat) : List Nat := s.map lowerByte

/-- Bytes stripped by Python `str.strip()` (ASCII whitespace and the
ASCII separator control characters). -/
def isSpaceByte (c : Nat) : Bool :=
  c == 9 || c == 10 || c == 11 || c == 12 || c == 13 ||
    c == 28 || c == 29 || c == 30 || c == 31 || c == 32

/-- Byte-level model of Python `str.strip()`. -/
def pyStrip (s : List Nat) : List Nat :=
  ((s.dropWhile isSpaceByte).reverse.dropWhile isSpaceByte).reverse

/-- Model of `pathlib.Path(s).name` (POSIX): split on `/` (byte 47),
drop empty and `.` components, and take the last component, or the empty
string when there is none. -/
def pathName (s : List Nat) : List Nat :=
  (((s.splitOn 47).filter (fun c => !(c == []) && !(c == [46]))).getLast?).getD []

/-- The Python values reaching `to_money64` in this program:
`None`, an `int` (from the CSS0 parser), or a `str` (from CSV). -/
inductive PyVal where
  | vNone : PyVal
  | vInt : Int → PyVal
  | vStr : List Nat → PyVal
deriving DecidableEq

/-- Result of Python `float(s)`: a finite value (modelled as the exact
rational the literal denotes), an infinity, or NaN. -/
inductive PyFloat where
  | fin : ℚ → PyFloat
  | inf : PyFloat
  | ninf : PyFloat
  | nan : PyFloat
deriving DecidableEq

/-- ASCII digit test. -/
def isDigit (c : Nat) : Bool := 48 ≤ c ∧ c ≤ 57

/-- Value of an ASCII digit string. -/
def digitsToNat (ds : List Nat) : Nat := ds.foldl (fun a d => a * 10 + (d - 48)) 0

/-- A digit sequence with Python's underscore grouping: digits with
single underscores strictly between digits (`float("1_0")` is 10.0;
`"_1"`, `"1_"`, `"1__0"` are `ValueError`).  Returns the digits with the
underscores removed, or `none` when the grouping is invalid.  The empty
sequence is valid here; callers require non-emptiness where the grammar
does. -/
def parseUDigits : List Nat → Option (List Nat)
  | [] => some []
  | [c] => if isDigit c then some [c] else none
  | c :: c2 :: rest =>
    if isDigit c then
      if c2 = 95 then
        match rest with
        | [] => none
        | c3 :: _ =>
          if isDigit c3 then (parseUDigits rest).map (fun ds => c :: ds) else none
      else (parseUDigits (c2 :: rest)).map (fun ds => c :: ds)
    else none

/-- Parse an optionally signed ASCII integer (the exponent part of a
float literal), underscore grouping included. -/
def parseExpInt (e : List Nat) : Option Int :=
  match e with
  | 43 :: d =>
    match parseUDigits d with
    | some ds => if ds ≠ [] then some (Int.ofNat (digitsToNat ds)) else none
    | none => none
  | 45 :: d =>
    match parseUDigits d with
    | some ds => if ds ≠ [] then some (-Int.ofNat (digitsToNat ds)) else none
    | none => none
  | d =>
    match parseUDigits d with
    | some ds => if ds ≠ [] then some (Int.ofNat (digitsToNat ds)) else none
    | none => none

/-- Parse the mantissa `digits[.digits]` of a float literal as the exact
rational it denotes; at least one digit must be present.  Rationals are
built with `mkRat` so that all values reduce inside the kernel. -/
def parseMantissa (m : List Nat) : Option ℚ :=
  match m.splitOn 46 with
  | [d] =>
    match parseUDigits d with
    | some ds => if ds ≠ [] then some (mkRat (digitsToNat ds) 1) else none
    | none => none
  | [d, f] =>
    match parseUDigits d, parseUDigits f with
    | some ds, some fs =>
      if ds ≠ [] ∨ fs ≠ [] then
        some (mkRat (digitsToNat ds * 10 ^ fs.length + digitsToNat fs) (10 ^ fs.length))
      else none
    | _, _ => none
  | _ => none

/-- Parse `mantissa[e exponent]` as the exact rational the literal
denotes (scaling by the power of ten of the exponent). -/
def parseDecimal (t : List Nat) : Option ℚ :=
  match t.splitOn 101 with
  | [m] => parseMantissa m
  | [m, e] =>
    match parseMantissa m, parseExpInt e with
    | some qm, some ex =>
      some (if 0 ≤ ex then mkRat (qm.num * Int.ofNat (10 ^ ex.toNat)) qm.den
        else mkRat qm.num (qm.den * 10 ^ (-ex).toNat))
    | _, _ => none
  | _ => none

/-- Fuelled floor of the base-2 logarithm (structural recursion so that
the kernel can evaluate it; `fuel = n` always suffices). -/
def natLog2F : Nat → Nat → Nat
  | 0, _ => 0
  | fuel + 1, n => if n ≤ 1 then 0 else natLog2F fuel (n / 2) + 1

/-- Floor of the base-2 logarithm of a positive natural number. -/
def natLog2 (n : Nat) : Nat := natLog2F n n

/-- Floor of the base-2 logarithm of the positive rational `n / d`
(`n, d ≥ 1`): from the bit lengths of `n` and `d` the value is one of
two candidates, settled by one exact comparison. -/
def ratLog2Floor (n d : Nat) : Int :=
  let a : Int := natLog2 n
  let b : Int := natLog2 d
  if a ≥ b then (if n ≥ d * 2 ^ (a - b).toNat then a - b else a - b - 1)
  else (if n * 2 ^ (b - a).toNat ≥ d then a - b else a - b - 1)

/-- Correctly rounded conversion of the non-negative rational `n / d`
(`d ≥ 1`) to an IEEE-754 binary64 magnitude, as CPython's
string-to-float conversion performs: round to nearest, ties to even,
with a 53-bit significand, subnormals below `2 ^ (-1022)` (quantum
`2 ^ (-1074)`), and silent overflow — `none` — when the rounded value
reaches `2 ^ 1024`.  The result is the exact (dyadic) rational value of
the double. -/
def roundNonnegB64 (n d : Nat) : Option ℚ :=
  if n = 0 then some (mkRat 0 1)
  else
    let e := ratLog2Floor n d
    let sc : Int := if e < -1022 then -1074 else e - 52
    let N := if sc ≤ 0 then n * 2 ^ (-sc).toNat else n
    let D := if sc ≤ 0 then d else d * 2 ^ sc.toNat
    let m0 := N / D
    let rem := N % D
    let m := if 2 * rem > D ∨ (2 * rem = D ∧ m0 % 2 = 1) then m0 + 1 else m0
    if (if 0 ≤ sc then m * 2 ^ sc.toNat ≥ 2 ^ 1024 else m ≥ 2 ^ 1024 * 2 ^ (-sc).toNat)
    then none
    else some (if 0 ≤ sc then mkRat (m * 2 ^ sc.toNat) 1 else mkRat m (2 ^ (-sc).toNat))

/-- The binary64 value of an exact rational, sign included: a finite
double (its exact rational value) or an infinity on overflow. -/
def floatOfRat (q : ℚ) : PyFloat :=
  if 0 ≤ q.num then
    match roundNonnegB64 q.num.toNat q.den with
    | some r => PyFloat.fin r
    | none => PyFloat.inf
  else
    match roundNonnegB64 (-q.num).toNat q.den with
    | some r => PyFloat.fin (mkRat (-(r.num)) r.den)
    | none => PyFloat.ninf

/-- Model of Python `float(s)`: strip, case-fold, optional sign, then an
`inf`/`infinity`/`nan` keyword or a decimal literal with optional
exponent and underscore digit grouping.  A finite literal is rounded to
the nearest binary64 (overflowing literals such as `"1e400"` silently
become an infinity, as CPython's string conversion does). -/
def pyFloatParse (s0 : List Nat) : Option PyFloat :=
  let s := lowerBytes (pyStrip s0)
  let signed : Bool × List Nat :=
    match s with
    | 43 :: r => (false, r)
    | 45 :: r => (true, r)
    | r => (false, r)
  let neg := signed.1
  let t := signed.2
  if t = [105, 110, 102] ∨ t = [105, 110, 102, 105, 110, 105, 116, 121] then
    some (if neg then PyFloat.ninf else PyFloat.inf)
  else if t = [110, 97, 110] then some PyFloat.nan
  else
    match parseDecimal t with
    | some q => some (floatOfRat (if neg then mkRat (-(q.num)) q.den else q))
    | none => none

/-- Truncation toward zero, as Python `int()` of a finite float
(`Int.tdiv` truncates toward zero, and `num/den` is the reduced form;
on the dyadic value of a double this is exact). -/
def pyTrunc (q : ℚ) : Int := Int.tdiv q.num (q.den : Int)

/-- Embeds `to_money64` from `highscores.py`: `None` and empty/blank text
give 0; otherwise `int(float(str(x)))`.  A `float` parse failure
(non-numeric text) and `int(nan)` raise `ValueError`, which is caught
and gives 0; `int(±inf)` raises `OverflowError`, which the source does
not catch, embedded as `Except.error`.  An `int` input goes through
`str`/`float` like any other value: `str(i)` denotes `i` exactly and
`float` rounds it to the nearest binary64 (so values beyond `2 ^ 53` may
change, and an integer beyond the double range overflows to an infinity
and raises). -/
def to_money64 : PyVal → Except Unit Int
  | PyVal.vNone => Except.ok 0
  | PyVal.vInt i =>
    match floatOfRat (mkRat i 1) with
    | PyFloat.fin r => Except.ok (pyTrunc r)
    | PyFloat.nan => Except.ok 0
    | PyFloat.inf => Except.error ()
    | PyFloat.ninf => Except.error ()
  | PyVal.vStr s =>
    let t := pyStrip s
    if t = [] then Except.ok 0
    else
      match pyFloatParse t with
      | none => Except.ok 0
      | some (PyFloat.fin q) => Except.ok (pyTrunc q)
      | some PyFloat.nan => Except.ok 0
      | some PyFloat.inf => Except.error ()
      | some PyFloat.ninf => Except.error ()

/-- A score entry as handled by `highscores.py`: original-case filename,
winner name, 64-bit company value and timestamp. -/
structure ScoreEntry where
  fn : List Nat
  winner : List Nat
  value : Int
  ts : Int
deriving DecidableEq

/-- Python dict lookup (`d.get(k)`) on the association-list model. -/
def dictGet : List (List Nat × ScoreEntry) → List Nat → Option ScoreEntry
  | [], _ => none
  | (k, v) :: rest, key => if k = key then some v else dictGet rest key

/-- Python dict assignment (`d[k] = v`) on the association-list model:
replace in place if the key exists (Python dicts keep insertion order on
update), otherwise append. -/
def dictInsert : List (List Nat × ScoreEntry) → List Nat → ScoreEntry →
    List (List Nat × ScoreEntry)
  | [], key, v => [(key, v)]
  | (k, w) :: rest, key, v =>
    if k = key then (k, v) :: rest else (k, w) :: dictInsert rest key v

/-- An input row as consumed by `best_map_from_rows` (the `r.get(...)`
defaults are folded into the field values: a missing field is the empty
string / `None`). -/
structure InRow where
  filename : List Nat
  winner : List Nat
  company_value : PyVal
deriving DecidableEq

/-- Embeds the loop of `best_map_from_rows` from `highscores.py`,
processing the remaining rows against the accumulated best-map: reduce
the filename to its stripped final path component and skip the row if it
(or the stripped winner) is empty; coerce the company value (propagating
the uncaught `OverflowError` of `to_money64`); keep the candidate under
the lowercased filename key only when no entry exists yet or the new
value is strictly larger; new entries get timestamp `INT64_MIN`. -/
def bestFold : List InRow → List (List Nat × ScoreEntry) →
    Except Unit (List (List Nat × ScoreEntry))
  | [], best => Except.ok best
  | r :: rest, best =>
    let fn := pathName (pyStrip r.filename)
    if fn = [] then bestFold rest best
    else
      let w := pyStrip r.winner
      if w = [] then bestFold rest best
      else
        match to_money64 r.company_value with
        | Except.error e => Except.error e
        | Except.ok val =>
          match dictGet best (lowerBytes fn) with
          | none => bestFold rest (dictInsert best (lowerBytes fn) ⟨fn, w, val, INT64_MIN⟩)
          | some prev =>
            if val > prev.value then
              bestFold rest (dictInsert best (lowerBytes fn) ⟨fn, w, val, INT64_MIN⟩)
            else bestFold rest best

/-- Embeds `best_map_from_rows` from `highscores.py`. -/
def best_map_from_rows (rows : List InRow) :
    Except Unit (List (List Nat × ScoreEntry)) :=
  bestFold rows []

/-- Embeds the merge loop of `_run_build` from `highscores.py`:
`merged = dict(existing); for k, v in new_map.items():
if prev is None or v[2] > prev[2]: merged[k] = v`. -/
def mergeFold : List (List Nat × ScoreEntry) → List (List Nat × ScoreEntry) →
    List (List Nat × ScoreEntry)
  | merged, [] => merged
  | merged, (k, v) :: rest =>
    match dictGet merged k with
    | none => mergeFold (dictInsert merged k v) rest
    | some prev =>
      if v.value > prev.value then mergeFold (dictInsert merged k v) rest
      else mergeFold merged rest

/-- The merge of an existing map with a new best-map, as in `_run_build`
from `highscores.py` (when `--merge` is given). -/
def merge_maps (existing newMap : List (List Nat × ScoreEntry)) :
    List (List Nat × ScoreEntry) :=
  mergeFold existing newMap

/-! ### `highscores.py`: the score-file codec -/

/-- Embeds `write_cstring` from `highscores.py`: encoded bytes plus one
0x00 terminator. -/
def write_cstring (s : List Nat) : List Nat := s ++ [0]

/-- `struct.pack("<I", n)` for in-range `n` (the source raises outside
`[0, 2^32)`; theorems that use this carry the range as a hypothesis). -/
def pack_u32 (n : Nat) : List Nat := bytesLE 4 (n % 4294967296)

/-- `struct.pack("<q", v)` for in-range `v` (the source raises outside
the signed 64-bit range; theorems carry the range as a hypothesis). -/
def pack_i64 (v : Int) : List Nat := bytesLE 8 (v % 18446744073709551616).toNat

/-- The byte serialization of one entry, as the writer loop of
`write_from_map` emits it. -/
def entryBytes (e : ScoreEntry) : List Nat :=
  write_cstring e.fn ++ write_cstring e.winner ++ pack_i64 e.value ++ pack_i64 e.ts

/-- Lexicographic comparison of byte strings, as Python `<=` on the
corresponding strings (code-point order; byte order coincides on the
ASCII data handled here). -/
def lexLe : List Nat → List Nat → Bool
  | [], _ => true
  | _ :: _, [] => false
  | a :: xs, b :: ys => if a < b then true else if b < a then false else lexLe xs ys

/-- The sort key of `write_from_map`: compare entries by lowercased
filename (`items.sort(key=lambda t: t[0].lower())`). -/
def lowerLe (a b : ScoreEntry) : Bool := lexLe (lowerBytes a.fn) (lowerBytes b.fn)

/-- Stable insertion of an entry into a key-sorted list: the new entry
goes before the first existing entry it compares `≤` to, so that earlier
entries stay before later equal-key ones, as in Python's stable sort. -/
def insertByKey (e : ScoreEntry) : List ScoreEntry → List ScoreEntry
  | [] => [e]
  | x :: xs => if lowerLe e x then e :: x :: xs else x :: insertByKey e xs

/-- Model of `items.sort(key=lambda t: t[0].lower())`: a stable sort by
lowercased filename (Python's Timsort is a stable sort by this key; any
stable sort computes the same list). -/
def sortByKey : List ScoreEntry → List ScoreEntry
  | [] => []
  | x :: xs => insertByKey x (sortByKey xs)

theorem insertByKey_perm (e : ScoreEntry) (l : List ScoreEntry) :
    (insertByKey e l).Perm (e :: l) := by
  induction l with
  | nil => exact List.Perm.refl _
  | cons x xs ih =>
    by_cases h : lowerLe e x
    · simp only [insertByKey, if_pos h]
      exact List.Perm.refl _
    · simp only [insertByKey, if_neg h]
      exact (ih.cons x).trans (List.Perm.swap e x xs)

theorem sortByKey_perm (l : List ScoreEntry) : (sortByKey l).Perm l := by
  induction l with
  | nil => exact List.Perm.refl _
  | cons x xs ih =>
    exact (insertByKey_perm x (sortByKey xs)).trans (ih.cons x)

/-- Embeds `write_from_map` from `highscores.py`: take the dict's values,
sort them by lowercased filename, and emit `u32 version = 2` LE,
`u32 count` LE, then per entry the two null-terminated strings and the
two signed 64-bit little-endian integers. -/
def write_from_map (entries : List (List Nat × ScoreEntry)) : List Nat :=
  pack_u32 2 ++ pack_u32 (sortByKey (entries.map Prod.snd)).length ++
    (sortByKey (entries.map Prod.snd)).foldr (fun e acc => entryBytes e ++ acc) []

/-- Embeds `_read_cstring` from `highscores.py`: bytes up to the first
0x00 or end of input; the terminator, when present, is consumed. -/
def readCString (s : List Nat) : List Nat × List Nat :=
  (s.takeWhile (fun b => b != 0), (s.drop (s.takeWhile (fun b => b != 0)).length).drop 1)

/-- A 4-byte little-endian read (`int.from_bytes(f.read(4), "little")`);
a short read at end of file yields the value of the remaining bytes. -/
def readU32 (s : List Nat) : Nat × List Nat := (decodeLE (s.take 4), s.drop 4)

/-- `int.from_bytes(bs, "little", signed=True)`: two's complement with
respect to the actual number of bytes read. -/
def decodeSignedLE (bs : List Nat) : Int :=
  if 2 * decodeLE bs ≥ 2 ^ (8 * bs.length) then
    (decodeLE bs : Int) - 2 ^ (8 * bs.length)
  else (decodeLE bs : Int)

/-- An 8-byte signed little-endian read (`f.read(8)`), short reads
included. -/
def readI64 (s : List Nat) : Int × List Nat := (decodeSignedLE (s.take 8), s.drop 8)

/-- Embeds the entry-reading loop of `load_highscores` from
`highscores.py`: `cnt` iterations of two cstrings and two signed 64-bit
integers, keyed into the dict by lowercased filename (reads past end of
file yield empty strings and zeros, as `f.read` does). -/
def loadLoop : Nat → List Nat → List (List Nat × ScoreEntry) →
    List (List Nat × ScoreEntry)
  | 0, _, m => m
  | n + 1, s, m =>
    let fn := (readCString s).1
    let s1 := (readCString s).2
    let name := (readCString s1).1
    let s2 := (readCString s1).2
    let val := (readI64 s2).1
    let s3 := (readI64 s2).2
    let ts := (readI64 s3).1
    let s4 := (readI64 s3).2
    loadLoop n s4 (dictInsert m (lowerBytes fn) ⟨fn, name, val, ts⟩)

/-- Embeds `load_highscores` from `highscores.py` on the file's bytes:
read the (unused) version word, the count word, then the entries. -/
def load_highscores (s : List Nat) : List (List Nat × ScoreEntry) :=
  loadLoop (readU32 (readU32 s).2).1 (readU32 (readU32 s).2).2 []

/-- The rows presented to `best_map_from_rows` when a score file's own
entries are fed back as the "new" input (filename, winner and integer
company value of each entry, in order). -/
def rowsOf (m : List (List Nat × ScoreEntry)) : List InRow :=
  m.map (fun kv => ⟨kv.2.fn, kv.2.winner, PyVal.vInt kv.2.value⟩)

/-! ### Association-list dictionary lemmas -/

theorem dictGet_dictInsert_self (m : List (List Nat × ScoreEntry)) (k : List Nat)
    (v : ScoreEntry) : dictGet (dictInsert m k v) k = some v := by
  induction m with
  | nil => simp [dictInsert, dictGet]
  | cons kv rest ih =>
    obtain ⟨k0, w⟩ := kv
    by_cases h : k0 = k
    · simp [dictInsert, h, dictGet]
    · simp [dictInsert, h, dictGet, ih]

theorem dictGet_dictInsert_ne (m : List (List Nat × ScoreEntry)) (k k2 : List Nat)
    (v : ScoreEntry) (h : k2 ≠ k) :
    dictGet (dictInsert m k v) k2 = dictGet m k2 := by
  induction m with
  | nil => simp [dictInsert, dictGet, Ne.symm h]
  | cons kv rest ih =>
    obtain ⟨k0, w⟩ := kv
    by_cases h0 : k0 = k
    · subst h0
      simp [dictInsert, dictGet, Ne.symm h]
    · simp [dictInsert, if_neg h0, dictGet, ih]

theorem dictGet_eq_none_iff (m : List (List Nat × ScoreEntry)) (k : List Nat) :
    dictGet m k = none ↔ k ∉ m.map Prod.fst := by
  induction m with
  | nil => simp [dictGet]
  | cons kv rest ih =>
    obtain ⟨k0, w⟩ := kv
    by_cases h : k0 = k
    · subst h
      simp [dictGet]
    · simp only [dictGet, if_neg h, List.map_cons, List.mem_cons, ih]
      constructor
      · rintro hk (h1 | h2)
        · exact h h1.symm
        · exact hk h2
      · intro hk h2
        exact hk (Or.inr h2)

theorem dictGet_of_mem_nodup :
    ∀ (m : List (List Nat × ScoreEntry)) (k : List Nat) (e : ScoreEntry),
      (m.map Prod.fst).Nodup → (k, e) ∈ m → dictGet m k = some e := by
  intro m
  induction m with
  | nil =>
    intro k e _ h
    simp at h
  | cons kv rest ih =>
    intro k e hn h
    obtain ⟨k0, w⟩ := kv
    simp only [List.map_cons, List.nodup_cons] at hn
    rcases List.mem_cons.mp h with h1 | h2
    · have hk : k = k0 := congrArg Prod.fst h1
      have he : e = w := congrArg Prod.snd h1
      rw [show dictGet ((k0, w) :: rest) k = if k0 = k then some w else dictGet rest k
        from rfl, if_pos hk.symm, he]
    · have hk0 : ¬ k0 = k := by
        intro hh
        exact hn.1 (by rw [hh]; exact List.mem_map.mpr ⟨(k, e), h2, rfl⟩)
      rw [show dictGet ((k0, w) :: rest) k = if k0 = k then some w else dictGet rest k
        from rfl, if_neg hk0]
      exact ih k e hn.2 h2

theorem mem_dictInsert :
    ∀ (m : List (List Nat × ScoreEntry)) (k : List Nat) (v : ScoreEntry)
      (kv : List Nat × ScoreEntry), kv ∈ dictInsert m k v → kv ∈ m ∨ kv = (k, v) := by
  intro m
  induction m with
  | nil =>
    intro k v kv h
    simpa [dictInsert] using h
  | cons kw rest ih =>
    intro k v kv h
    obtain ⟨k0, w⟩ := kw
    by_cases h0 : k0 = k
    · simp only [dictInsert, if_pos h0] at h
      rcases List.mem_cons.mp h with h1 | h2
      · right
        rw [h1, h0]
      · left
        exact List.mem_cons_of_mem _ h2
    · simp only [dictInsert, if_neg h0] at h
      rcases List.mem_cons.mp h with h1 | h2
      · left
        exact h1 ▸ List.mem_cons_self _ _
      · rcases ih k v kv h2 with h3 | h3
        · left
          exact List.mem_cons_of_mem _ h3
        · right
          exact h3

theorem keys_dictInsert_mem :
    ∀ (m : List (List Nat × ScoreEntry)) (k : List Nat) (v : ScoreEntry) (a : List Nat),
      (a ∈ (dictInsert m k v).map Prod.fst ↔ a ∈ m.map Prod.fst ∨ a = k) := by
  intro m
  induction m with
  | nil =>
    intro k v a
    simp [dictInsert, eq_comm]
  | cons kw rest ih =>
    intro k v a
    obtain ⟨k0, w⟩ := kw
    by_cases h0 : k0 = k
    · subst h0
      simp only [dictInsert, eq_self_iff_true, if_true, List.map_cons, List.mem_cons]
      tauto
    · simp only [dictInsert, if_neg h0, List.map_cons, List.mem_cons, ih]
      tauto

theorem dictInsert_nodup_keys :
    ∀ (m : List (List Nat × ScoreEntry)) (k : List Nat) (v : ScoreEntry),
      (m.map Prod.fst).Nodup → ((dictInsert m k v).map Prod.fst).Nodup := by
  intro m
  induction m with
  | nil =>
    intro k v _
    simp [dictInsert]
  | cons kw rest ih =>
    intro k v h
    obtain ⟨k0, w⟩ := kw
    simp only [List.map_cons, List.nodup_cons] at h
    by_cases h0 : k0 = k
    · subst h0
      simp only [dictInsert, eq_self_iff_true, if_true, List.map_cons, List.nodup_cons]
      exact h
    · simp only [dictInsert, if_neg h0, List.map_cons, List.nodup_cons]
      refine ⟨?_, ih k v h.2⟩
      intro hmem
      rcases (keys_dictInsert_mem rest k v k0).mp hmem with h3 | h3
      · exact h.1 h3
      · exact h0 h3

theorem dictInsert_fresh :
    ∀ (m : List (List Nat × ScoreEntry)) (k : List Nat) (v : ScoreEntry),
      k ∉ m.map Prod.fst → dictInsert m k v = m ++ [(k, v)] := by
  intro m
  induction m with
  | nil =>
    intro k v _
    rfl
  | cons kw rest ih =>
    intro k v h
    obtain ⟨k0, w⟩ := kw
    have h0 : ¬ k0 = k := by
      intro hh
      exact h (by simp [hh])
    simp only [dictInsert, if_neg h0, List.cons_append, List.cons.injEq, true_and]
    exact ih k v (fun hh => h (by simp [hh]))

/-! ### C9: the numeric coercion -/

/-- C9 counterexample: the claim says the coercion never raises for any
input string, but `to_money64` reaches `int(float(s))`, whose
`OverflowError` is not caught by the source's `except ValueError` — both
on the string `"inf"` and on `"1e400"`, whose finite literal silently
overflows the binary64 range to an infinity inside `float`; the
embedding returns `Except.error` on both. -/
theorem to_money64_C9_counterexample :
    to_money64 (PyVal.vStr [105, 110, 102]) = Except.error () ∧
    to_money64 (PyVal.vStr [49, 101, 52, 48, 48]) = Except.error () :=
  ⟨rfl, rfl⟩

/-- C9 (amended): for every input value, the coercion returns an integer
(in particular: absent and empty values give 0, non-numeric text gives 0,
and `nan` gives 0), except when `float` evaluates to an infinity — an
infinity keyword, a finite literal overflowing the double range, or an
integer input whose decimal representation overflows it — where
`int(±inf)` raises an uncaught `OverflowError`; and on text whose
`float` value is the finite double `q` the result is `q` truncated
toward zero. -/
theorem to_money64_total_C9 :
    (∀ v : PyVal,
      (∃ i : Int, to_money64 v = Except.ok i) ∨
      (∃ s, v = PyVal.vStr s ∧
        (pyFloatParse (pyStrip s) = some PyFloat.inf ∨
          pyFloatParse (pyStrip s) = some PyFloat.ninf)) ∨
      (∃ i : Int, v = PyVal.vInt i ∧
        (floatOfRat (mkRat i 1) = PyFloat.inf ∨
          floatOfRat (mkRat i 1) = PyFloat.ninf))) ∧
    (∀ (s : List Nat) (q : ℚ), pyStrip s ≠ [] →
      pyFloatParse (pyStrip s) = some (PyFloat.fin q) →
      to_money64 (PyVal.vStr s) = Except.ok (pyTrunc q)) := by
  constructor
  · intro v
    match v with
    | PyVal.vNone => exact Or.inl ⟨0, rfl⟩
    | PyVal.vInt i =>
      cases hf : floatOfRat (mkRat i 1) with
      | fin r => exact Or.inl ⟨pyTrunc r, by simp only [to_money64, hf]⟩
      | nan => exact Or.inl ⟨0, by simp only [to_money64, hf]⟩
      | inf => exact Or.inr (Or.inr ⟨i, rfl, Or.inl hf⟩)
      | ninf => exact Or.inr (Or.inr ⟨i, rfl, Or.inr hf⟩)
    | PyVal.vStr s =>
      by_cases ht : pyStrip s = []
      · exact Or.inl ⟨0, by simp [to_money64, ht]⟩
      · cases hp : pyFloatParse (pyStrip s) with
        | none => exact Or.inl ⟨0, by simp [to_money64, ht, hp]⟩
        | some f =>
          cases f with
          | fin q => exact Or.inl ⟨pyTrunc q, by simp [to_money64, ht, hp]⟩
          | nan => exact Or.inl ⟨0, by simp [to_money64, ht, hp]⟩
          | inf => exact Or.inr (Or.inl ⟨s, rfl, Or.inl hp⟩)
          | ninf => exact Or.inr (Or.inl ⟨s, rfl, Or.inr hp⟩)
  · intro s q ht hp
    simp [to_money64, ht, hp]

/-- Witness for C9 at the concrete input `"2.5"` (which the double
rounding represents exactly): the coercion returns the truncation of
5/2. -/
theorem to_money64_total_C9_witness :
    to_money64 (PyVal.vStr [50, 46, 53]) = Except.ok (pyTrunc (mkRat 25 10)) :=
  to_money64_total_C9.2 [50, 46, 53] (mkRat 25 10) (by decide) (by decide)

/-! ### C6: the best-by-filename reduction -/

theorem bestFold_inv :
    ∀ (rows : List InRow) (m best : List (List Nat × ScoreEntry)),
      (m.map Prod.fst).Nodup → (∀ kv ∈ m, kv.1 = lowerBytes kv.2.fn) →
      bestFold rows m = Except.ok best →
      (best.map Prod.fst).Nodup ∧ ∀ kv ∈ best, kv.1 = lowerBytes kv.2.fn := by
  intro rows
  induction rows with
  | nil =>
    intro m best h1 h2 h3
    cases h3
    exact ⟨h1, h2⟩
  | cons r rest ih =>
    intro m best h1 h2 h3
    simp only [bestFold] at h3
    by_cases hfn : pathName (pyStrip r.filename) = []
    · rw [if_pos hfn] at h3
      exact ih m best h1 h2 h3
    · rw [if_neg hfn] at h3
      by_cases hw : pyStrip r.winner = []
      · rw [if_pos hw] at h3
        exact ih m best h1 h2 h3
      · rw [if_neg hw] at h3
        cases hv : to_money64 r.company_value with
        | error e =>
          simp only [hv] at h3
          exact Except.noConfusion h3
        | ok val =>
          simp only [hv] at h3
          cases hg : dictGet m (lowerBytes (pathName (pyStrip r.filename))) with
          | none =>
            simp only [hg] at h3
            refine ih _ best (dictInsert_nodup_keys _ _ _ h1) ?_ h3
            intro kv hkv
            rcases mem_dictInsert _ _ _ kv hkv with hm | he
            · exact h2 kv hm
            · rw [he]
          | some prev =>
            simp only [hg] at h3
            by_cases hcmp : val > prev.value
            · rw [if_pos hcmp] at h3
              refine ih _ best (dictInsert_nodup_keys _ _ _ h1) ?_ h3
              intro kv hkv
              rcases mem_dictInsert _ _ _ kv hkv with hm | he
              · exact h2 kv hm
              · rw [he]
            · rw [if_neg hcmp] at h3
              exact ih m best h1 h2 h3

/-- C6: the best-by-filename reduction keeps at most one entry per
lowercased filename — every successfully built best-map has pairwise
distinct keys and each entry is keyed by the lowercased filename it
carries — and on the claim's concrete scenario (rows `"SC1.SC4"` with
value 100 and `"sc1.sc4"` with value 200, both with non-empty winners)
the result is exactly one entry, keyed `"sc1.sc4"`, with value 200 and
the casing and winner of the higher-value row. -/
theorem best_map_dedup_C6 :
    (∀ rows best, best_map_from_rows rows = Except.ok best →
      (best.map Prod.fst).Nodup ∧ ∀ kv ∈ best, kv.1 = lowerBytes kv.2.fn) ∧
    best_map_from_rows
        [⟨[83, 67, 49, 46, 83, 67, 52], [65], PyVal.vStr [49, 48, 48]⟩,
          ⟨[115, 99, 49, 46, 115, 99, 52], [66], PyVal.vStr [50, 48, 48]⟩] =
      Except.ok
        [([115, 99, 49, 46, 115, 99, 52],
          ⟨[115, 99, 49, 46, 115, 99, 52], [66], 200, INT64_MIN⟩)] := by
  constructor
  · intro rows best h
    exact bestFold_inv rows [] best (by simp) (by simp) h
  · rfl

/-- Witness for C6: key distinctness read off a concretely built
best-map. -/
theorem best_map_dedup_C6_witness :
    (([([115, 99, 49, 46, 115, 99, 52],
        (⟨[115, 99, 49, 46, 115, 99, 52], [66], 200, INT64_MIN⟩ : ScoreEntry))].map
      Prod.fst).Nodup) :=
  (best_map_dedup_C6.1
    [⟨[83, 67, 49, 46, 83, 67, 52], [65], PyVal.vStr [49, 48, 48]⟩,
      ⟨[115, 99, 49, 46, 115, 99, 52], [66], PyVal.vStr [50, 48, 48]⟩]
    [([115, 99, 49, 46, 115, 99, 52],
      ⟨[115, 99, 49, 46, 115, 99, 52], [66], 200, INT64_MIN⟩)]
    best_map_dedup_C6.2).1

/-! ### C7 and C10: the merge -/

theorem mergeFold_mono :
    ∀ (news merged : List (List Nat × ScoreEntry)) (k : List Nat) (e : ScoreEntry),
      dictGet merged k = some e →
      ∃ e2, dictGet (mergeFold merged news) k = some e2 ∧ e.value ≤ e2.value := by
  intro news
  induction news with
  | nil =>
    intro merged k e h
    exact ⟨e, h, le_refl _⟩
  | cons kv rest ih =>
    intro merged k e h
    obtain ⟨k0, v⟩ := kv
    cases hg : dictGet merged k0 with
    | none =>
      simp only [mergeFold, hg]
      have hne : k ≠ k0 := by
        intro hh
        subst hh
        rw [h] at hg
        exact Option.noConfusion hg
      exact ih (dictInsert merged k0 v) k e
        (by rw [dictGet_dictInsert_ne _ _ _ _ hne]; exact h)
    | some prev =>
      simp only [mergeFold, hg]
      by_cases hc : v.value > prev.value
      · rw [if_pos hc]
        by_cases hk : k = k0
        · subst hk
          have he : e = prev := by
            rw [h] at hg
            exact Option.some.inj hg
          obtain ⟨e2, h2, h3⟩ :=
            ih (dictInsert merged k v) k v (dictGet_dictInsert_self _ _ _)
          exact ⟨e2, h2, le_trans (by rw [he]; exact le_of_lt hc) h3⟩
        · exact ih (dictInsert merged k0 v) k e
            (by rw [dictGet_dictInsert_ne _ _ _ _ hk]; exact h)
      · rw [if_neg hc]
        exact ih merged k e h

theorem mergeFold_untouched :
    ∀ (news merged : List (List Nat × ScoreEntry)) (k : List Nat),
      k ∉ news.map Prod.fst →
      dictGet (mergeFold merged news) k = dictGet merged k := by
  intro news
  induction news with
  | nil =>
    intro merged k _
    rfl
  | cons kv rest ih =>
    intro merged k hk
    obtain ⟨k0, v⟩ := kv
    have hne : k ≠ k0 := by
      intro hh
      exact hk (by simp [hh])
    have hkrest : k ∉ rest.map Prod.fst := fun hh => hk (by simp [hh])
    cases hg : dictGet merged k0 with
    | none =>
      simp only [mergeFold, hg]
      rw [ih (dictInsert merged k0 v) k hkrest, dictGet_dictInsert_ne _ _ _ _ hne]
    | some prev =>
      simp only [mergeFold, hg]
      by_cases hc : v.value > prev.value
      · rw [if_pos hc, ih (dictInsert merged k0 v) k hkrest,
          dictGet_dictInsert_ne _ _ _ _ hne]
      · rw [if_neg hc, ih merged k hkrest]

theorem mergeFold_lookup :
    ∀ (news merged : List (List Nat × ScoreEntry)) (k : List Nat) (v : ScoreEntry),
      (news.map Prod.fst).Nodup → (k, v) ∈ news →
      dictGet (mergeFold merged news) k =
        some (match dictGet merged k with
          | none => v
          | some p => if v.value > p.value then v else p) := by
  intro news
  induction news with
  | nil =>
    intro merged k v _ h
    simp at h
  | cons kv rest ih =>
    intro merged k v hn hmem
    obtain ⟨k0, v0⟩ := kv
    simp only [List.map_cons, List.nodup_cons] at hn
    rcases List.mem_cons.mp hmem with h1 | h2
    · have hk : k = k0 := congrArg Prod.fst h1
      have hv : v = v0 := congrArg Prod.snd h1
      subst hk
      subst hv
      have hknotin : k ∉ rest.map Prod.fst := hn.1
      cases hg : dictGet merged k with
      | none =>
        simp only [mergeFold, hg]
        rw [mergeFold_untouched rest _ k hknotin, dictGet_dictInsert_self]
      | some p =>
        simp only [mergeFold, hg]
        by_cases hc : v.value > p.value
        · rw [if_pos hc, mergeFold_untouched rest _ k hknotin, dictGet_dictInsert_self,
            if_pos hc]
        · rw [if_neg hc, mergeFold_untouched rest _ k hknotin, hg, if_neg hc]
    · have hkne : k ≠ k0 := by
        intro hh
        exact hn.1 (by rw [← hh]; exact List.mem_map.mpr ⟨(k, v), h2, rfl⟩)
      cases hg : dictGet merged k0 with
      | none =>
        simp only [mergeFold, hg]
        rw [ih (dictInsert merged k0 v0) k v hn.2 h2,
          dictGet_dictInsert_ne _ _ _ _ hkne]
      | some p =>
        simp only [mergeFold, hg]
        by_cases hc : v0.value > p.value
        · rw [if_pos hc, ih (dictInsert merged k0 v0) k v hn.2 h2,
            dictGet_dictInsert_ne _ _ _ _ hkne]
        · rw [if_neg hc, ih merged k v hn.2 h2]

/-- C7: in the merge of a new best-map into an existing map, every key
present in the existing map keeps a value that is at least its pre-merge
value (scores never regress); for each key of the new map (whose keys are
pairwise distinct, as produced by the best-map dict) the retained entry
is the new one exactly when its value is strictly larger than the
existing one, else the existing one (or the new one when the key is
fresh); and a key absent from the new map keeps its existing entry
unchanged. -/
theorem merge_monotone_C7 :
    (∀ (existing newMap : List (List Nat × ScoreEntry)) (k : List Nat) (e : ScoreEntry),
      dictGet existing k = some e →
      ∃ e2, dictGet (merge_maps existing newMap) k = some e2 ∧ e.value ≤ e2.value) ∧
    (∀ (existing newMap : List (List Nat × ScoreEntry)) (k : List Nat) (v : ScoreEntry),
      (newMap.map Prod.fst).Nodup → (k, v) ∈ newMap →
      dictGet (merge_maps existing newMap) k =
        some (match dictGet existing k with
          | none => v
          | some p => if v.value > p.value then v else p)) ∧
    (∀ (existing newMap : List (List Nat × ScoreEntry)) (k : List Nat),
      k ∉ newMap.map Prod.fst →
      dictGet (merge_maps existing newMap) k = dictGet existing k) :=
  ⟨fun ex nm k e h => mergeFold_mono nm ex k e h,
    fun ex nm k v hn hm => mergeFold_lookup nm ex k v hn hm,
    fun ex nm k h => mergeFold_untouched nm ex k h⟩

/-- Witness for C7 on concrete maps: existing `a ↦ 10`, new
`a ↦ 20, b ↦ 5`; key `a` does not regress, key `b` takes the new entry,
and the untouched key `c` keeps its existing lookup. -/
theorem merge_monotone_C7_witness :
    (∃ e2, dictGet (merge_maps [([97], ⟨[97], [65], 10, 0⟩)]
        [([97], ⟨[97], [66], 20, 1⟩), ([98], ⟨[98], [67], 5, 2⟩)]) [97] = some e2 ∧
      (⟨[97], [65], 10, 0⟩ : ScoreEntry).value ≤ e2.value) ∧
    dictGet (merge_maps [([97], ⟨[97], [65], 10, 0⟩)]
        [([97], ⟨[97], [66], 20, 1⟩), ([98], ⟨[98], [67], 5, 2⟩)]) [98] =
      some (match dictGet [([97], ⟨[97], [65], 10, 0⟩)] [98] with
        | none => (⟨[98], [67], 5, 2⟩ : ScoreEntry)
        | some p => if (⟨[98], [67], 5, 2⟩ : ScoreEntry).value > p.value then
            (⟨[98], [67], 5, 2⟩ : ScoreEntry) else p) ∧
    dictGet (merge_maps [([97], ⟨[97], [65], 10, 0⟩)]
        [([97], ⟨[97], [66], 20, 1⟩), ([98], ⟨[98], [67], 5, 2⟩)]) [99] =
      dictGet [([97], ⟨[97], [65], 10, 0⟩)] [99] :=
  ⟨merge_monotone_C7.1 _ _ [97] ⟨[97], [65], 10, 0⟩ (by decide),
    merge_monotone_C7.2.1 _ _ [98] ⟨[98], [67], 5, 2⟩ (by decide) (by decide),
    merge_monotone_C7.2.2 _ _ [99] (by decide)⟩

/-- C10: both reductions break value ties in favour of what is already
held.  In the best-by-filename fold, a row whose coerced value is not
strictly greater than the value already stored under its lowercased
filename key leaves the accumulated map unchanged (the first-seen row's
casing and winner survive); in the merge, a new entry whose value ties
with (or is below) the existing one leaves the existing entry — its
winner, casing and timestamp included — in place. -/
theorem tie_keeps_existing_C10 :
    (∀ (best : List (List Nat × ScoreEntry)) (rest : List InRow) (r : InRow)
        (val : Int) (prev : ScoreEntry),
      pathName (pyStrip r.filename) ≠ [] →
      pyStrip r.winner ≠ [] →
      to_money64 r.company_value = Except.ok val →
      dictGet best (lowerBytes (pathName (pyStrip r.filename))) = some prev →
      val ≤ prev.value →
      bestFold (r :: rest) best = bestFold rest best) ∧
    (∀ (existing newMap : List (List Nat × ScoreEntry)) (k : List Nat)
        (v e : ScoreEntry),
      (newMap.map Prod.fst).Nodup → (k, v) ∈ newMap →
      dictGet existing k = some e → v.value ≤ e.value →
      dictGet (merge_maps existing newMap) k = some e) := by
  constructor
  · intro best rest r val prev hfn hw hv hg hle
    simp only [bestFold, if_neg hfn, if_neg hw, hv, hg, if_neg (not_lt.mpr hle)]
  · intro ex nm k v e hn hm hg hle
    rw [show merge_maps ex nm = mergeFold ex nm from rfl,
      mergeFold_lookup nm ex k v hn hm, hg]
    simp only [if_neg (not_lt.mpr hle)]

/-- Witness for C10: a tying row (`value 10` against stored `10`) is
discarded by the best-map fold, and a tying new entry leaves the existing
entry (timestamp included) in the merged map. -/
theorem tie_keeps_existing_C10_witness :
    bestFold [⟨[97], [66], PyVal.vInt 10⟩] [([97], ⟨[97], [65], 10, 7⟩)] =
      bestFold [] [([97], ⟨[97], [65], 10, 7⟩)] ∧
    dictGet (merge_maps [([97], ⟨[97], [65], 10, 7⟩)]
        [([97], ⟨[97], [66], 10, 1⟩)]) [97] = some ⟨[97], [65], 10, 7⟩ :=
  ⟨tie_keeps_existing_C10.1 [([97], ⟨[97], [65], 10, 7⟩)] [] ⟨[97], [66], PyVal.vInt 10⟩
      10 ⟨[97], [65], 10, 7⟩ (by decide) (by decide) rfl (by decide) (by decide),
    tie_keeps_existing_C10.2 [([97], ⟨[97], [65], 10, 7⟩)] [([97], ⟨[97], [66], 10, 1⟩)]
      [97] ⟨[97], [66], 10, 1⟩ ⟨[97], [65], 10, 7⟩ (by decide) (by decide) (by decide)
      (by decide)⟩

/-! ### C8: merging a score file back into itself -/

theorem mergeFold_keep :
    ∀ (news merged : List (List Nat × ScoreEntry)),
      (∀ kv ∈ news, ∃ e, dictGet merged kv.1 = some e ∧ kv.2.value ≤ e.value) →
      mergeFold merged news = merged := by
  intro news
  induction news with
  | nil =>
    intro merged _
    rfl
  | cons kv rest ih =>
    intro merged h
    obtain ⟨k, v⟩ := kv
    obtain ⟨e, hg, hle⟩ := h (k, v) (List.mem_cons_self _ _)
    simp only [mergeFold, hg, if_neg (not_lt.mpr hle)]
    exact ih merged (fun kv2 h2 => h kv2 (List.mem_cons_of_mem _ h2))

theorem bestFold_mem_source :
    ∀ (rows : List InRow) (acc bm : List (List Nat × ScoreEntry)),
      bestFold rows acc = Except.ok bm →
      ∀ kv ∈ bm, kv ∈ acc ∨ ∃ r ∈ rows,
        pathName (pyStrip r.filename) ≠ [] ∧ pyStrip r.winner ≠ [] ∧
        kv.1 = lowerBytes (pathName (pyStrip r.filename)) ∧
        to_money64 r.company_value = Except.ok kv.2.value := by
  intro rows
  induction rows with
  | nil =>
    intro acc bm h kv hkv
    cases h
    exact Or.inl hkv
  | cons r rest ih =>
    intro acc bm h kv hkv
    simp only [bestFold] at h
    by_cases hfn : pathName (pyStrip r.filename) = []
    · rw [if_pos hfn] at h
      rcases ih acc bm h kv hkv with h1 | ⟨r2, h2, h3⟩
      · exact Or.inl h1
      · exact Or.inr ⟨r2, List.mem_cons_of_mem _ h2, h3⟩
    · rw [if_neg hfn] at h
      by_cases hw : pyStrip r.winner = []
      · rw [if_pos hw] at h
        rcases ih acc bm h kv hkv with h1 | ⟨r2, h2, h3⟩
        · exact Or.inl h1
        · exact Or.inr ⟨r2, List.mem_cons_of_mem _ h2, h3⟩
      · rw [if_neg hw] at h
        cases hv : to_money64 r.company_value with
        | error e =>
          simp only [hv] at h
          exact Except.noConfusion h
        | ok val =>
          simp only [hv] at h
          cases hg : dictGet acc (lowerBytes (pathName (pyStrip r.filename))) with
          | none =>
            simp only [hg] at h
            rcases ih _ bm h kv hkv with h1 | ⟨r2, h2, h3⟩
            · rcases mem_dictInsert _ _ _ kv h1 with h4 | h4
              · exact Or.inl h4
              · refine Or.inr ⟨r, List.mem_cons_self _ _, hfn, hw, ?_, ?_⟩
                · rw [h4]
                · rw [h4]
                  exact hv
            · exact Or.inr ⟨r2, List.mem_cons_of_mem _ h2, h3⟩
          | some prev =>
            simp only [hg] at h
            by_cases hc : val > prev.value
            · rw [if_pos hc] at h
              rcases ih _ bm h kv hkv with h1 | ⟨r2, h2, h3⟩
              · rcases mem_dictInsert _ _ _ kv h1 with h4 | h4
                · exact Or.inl h4
                · refine Or.inr ⟨r, List.mem_cons_self _ _, hfn, hw, ?_, ?_⟩
                  · rw [h4]
                  · rw [h4]
                    exact hv
              · exact Or.inr ⟨r2, List.mem_cons_of_mem _ h2, h3⟩
            · rw [if_neg hc] at h
              rcases ih acc bm h kv hkv with h1 | ⟨r2, h2, h3⟩
              · exact Or.inl h1
              · exact Or.inr ⟨r2, List.mem_cons_of_mem _ h2, h3⟩

/-- C8 counterexample: the claim fails as stated, in two independent
ways.  First, a score file may hold a filename with leading whitespace
(here `" A"`, as a real file on disk can); feeding its entries back
through the row normalizer strips the name, producing a different key,
so the merge grows the map and the written file differs from writing the
original map directly.  Second, even a fully normalized entry whose
value is `2^60 - 1` comes back from the coercion (`int(float(str(v)))`,
which rounds to the nearest binary64) as the strictly larger `2^60`, so
the merge replaces the entry and the written file again differs. -/
theorem merge_idempotent_C8_counterexample :
    (best_map_from_rows (rowsOf [([32, 97], ⟨[32, 65], [87], 5, 0⟩)]) =
      Except.ok [([97], ⟨[65], [87], 5, INT64_MIN⟩)] ∧
    write_from_map (merge_maps [([32, 97], ⟨[32, 65], [87], 5, 0⟩)]
        [([97], ⟨[65], [87], 5, INT64_MIN⟩)]) ≠
      write_from_map [([32, 97], ⟨[32, 65], [87], 5, 0⟩)]) ∧
    (best_map_from_rows (rowsOf [([97], ⟨[97], [87], 1152921504606846975, 0⟩)]) =
      Except.ok [([97], ⟨[97], [87], 1152921504606846976, INT64_MIN⟩)] ∧
    write_from_map (merge_maps [([97], ⟨[97], [87], 1152921504606846975, 0⟩)]
        [([97], ⟨[97], [87], 1152921504606846976, INT64_MIN⟩)]) ≠
      write_from_map [([97], ⟨[97], [87], 1152921504606846975, 0⟩)]) := by
  exact ⟨⟨rfl, by decide⟩, ⟨rfl, by decide⟩⟩

/-- C8 (amended): consider a score map with distinct keys whose entries
each either (a) are dropped by the row normalizer (filename or winner
empty after normalization) or (b) are fixed points of it: keyed by their
lowercased filename, filename unchanged by stripping and by taking the
final path component, and with a company value that the numeric coercion
(`int(float(str(v)))`, i.e. binary64 rounding) does not increase.
Feeding the map's own entries back as the "new" input and merging leaves
the map unchanged, so writing the merged map yields the same file as
writing the map directly. -/
theorem merge_idempotent_C8 (m : List (List Nat × ScoreEntry))
    (hkeys : (m.map Prod.fst).Nodup)
    (hwf : ∀ kv ∈ m,
      (pathName (pyStrip kv.2.fn) = [] ∨ pyStrip kv.2.winner = []) ∨
      (kv.1 = lowerBytes kv.2.fn ∧ pathName (pyStrip kv.2.fn) = kv.2.fn ∧
        ∀ w, to_money64 (PyVal.vInt kv.2.value) = Except.ok w → w ≤ kv.2.value)) :
    ∀ bm, best_map_from_rows (rowsOf m) = Except.ok bm →
      merge_maps m bm = m ∧
      write_from_map (merge_maps m bm) = write_from_map m := by
  intro bm hbm
  have hmerge : merge_maps m bm = m := by
    rw [show merge_maps m bm = mergeFold m bm from rfl]
    apply mergeFold_keep
    intro kv hkv
    rcases bestFold_mem_source (rowsOf m) [] bm hbm kv hkv with h1 | ⟨r, hr, hfn, hw, hk, hval⟩
    · exact absurd h1 (List.not_mem_nil kv)
    · obtain ⟨kv0, hkv0, hreq⟩ := List.mem_map.mp hr
      subst hreq
      rcases hwf kv0 hkv0 with hdrop | ⟨hkey, hpath, hle⟩
      · rcases hdrop with hd | hd
        · exact absurd hd hfn
        · exact absurd hd hw
      · have hk2 : kv.1 = lowerBytes (pathName (pyStrip kv0.2.fn)) := hk
        rw [hpath, ← hkey] at hk2
        have hval2 : to_money64 (PyVal.vInt kv0.2.value) = Except.ok kv.2.value := hval
        refine ⟨kv0.2, ?_, hle kv.2.value hval2⟩
        rw [hk2]
        exact dictGet_of_mem_nodup m kv0.1 kv0.2 hkeys hkv0
  exact ⟨hmerge, by rw [hmerge]⟩

/-- Witness for C8 on a concrete two-entry map: one normalization-fixed
entry (value 5, which binary64 represents exactly) and one entry whose
winner strips to empty, so its row is dropped. -/
theorem merge_idempotent_C8_witness :
    merge_maps [([97], ⟨[97], [87], 5, 0⟩), ([98], ⟨[98], [32], 7, 0⟩)]
        [([97], ⟨[97], [87], 5, INT64_MIN⟩)] =
      [([97], ⟨[97], [87], 5, 0⟩), ([98], ⟨[98], [32], 7, 0⟩)] ∧
    write_from_map (merge_maps [([97], ⟨[97], [87], 5, 0⟩), ([98], ⟨[98], [32], 7, 0⟩)]
        [([97], ⟨[97], [87], 5, INT64_MIN⟩)]) =
      write_from_map [([97], ⟨[97], [87], 5, 0⟩), ([98], ⟨[98], [32], 7, 0⟩)] :=
  merge_idempotent_C8 [([97], ⟨[97], [87], 5, 0⟩), ([98], ⟨[98], [32], 7, 0⟩)]
    (by decide)
    (by
      intro kv hkv
      rcases List.mem_cons.mp hkv with h1 | h2
      · subst h1
        refine Or.inr ⟨rfl, rfl, ?_⟩
        intro w h
        have h2 : Except.ok (5 : Int) = Except.ok w := h
        have h3 := Except.ok.inj h2
        show w ≤ (5 : Int)
        omega
      · simp only [List.mem_singleton] at h2
        subst h2
        exact Or.inl (Or.inr rfl))
    [([97], ⟨[97], [87], 5, INT64_MIN⟩)] rfl

/-! ### C5: writing and re-reading a score file -/

theorem take_drop_exact (l1 l2 : List Nat) (n : Nat) (h : l1.length = n) :
    (l1 ++ l2).take n = l1 ∧ (l1 ++ l2).drop n = l2 := by
  subst h
  exact ⟨List.take_left _ _, List.drop_left _ _⟩

theorem takeWhile_append_zero (xs rest : List Nat) (h : ∀ b ∈ xs, b ≠ 0) :
    (xs ++ 0 :: rest).takeWhile (fun b => b != 0) = xs := by
  induction xs with
  | nil => simp
  | cons x xs ih =>
    have hx : x ≠ 0 := h x (List.mem_cons_self _ _)
    simp only [List.cons_append, List.takeWhile_cons]
    simp [hx, ih (fun b hb => h b (List.mem_cons_of_mem _ hb))]

theorem readCString_append (xs rest : List Nat) (h : ∀ b ∈ xs, b ≠ 0) :
    readCString (xs ++ 0 :: rest) = (xs, rest) := by
  unfold readCString
  rw [takeWhile_append_zero xs rest h, List.drop_left]
  rfl

theorem decodeLE_bytesLE (k : Nat) : ∀ n, decodeLE (bytesLE k n) = n % 2 ^ (8 * k) := by
  induction k with
  | zero =>
    intro n
    simp [bytesLE, decodeLE, Nat.mod_one]
  | succ m ih =>
    intro n
    simp only [bytesLE, decodeLE, ih]
    have h1 : (2 : Nat) ^ (8 * (m + 1)) = 256 * 2 ^ (8 * m) := by
      rw [show 8 * (m + 1) = 8 + 8 * m by ring, pow_add]
      norm_num
    rw [h1, Nat.mod_mul]

theorem readU32_append (n : Nat) (rest : List Nat) (h : n < 4294967296) :
    readU32 (pack_u32 n ++ rest) = (n, rest) := by
  unfold readU32 pack_u32
  have hsplit := take_drop_exact (bytesLE 4 (n % 4294967296)) rest 4 (bytesLE_length 4 _)
  rw [hsplit.1, hsplit.2, decodeLE_bytesLE]
  rw [show n % 4294967296 % 2 ^ (8 * 4) = n by norm_num; omega]

theorem readI64_append (v : Int) (rest : List Nat)
    (h1 : -(2 ^ 63) ≤ v) (h2 : v < 2 ^ 63) :
    readI64 (pack_i64 v ++ rest) = (v, rest) := by
  unfold readI64
  have hsplit := take_drop_exact (pack_i64 v) rest 8 (bytesLE_length 8 _)
  rw [hsplit.1, hsplit.2]
  have hval : decodeSignedLE (pack_i64 v) = v := by
    unfold decodeSignedLE pack_i64
    rw [decodeLE_bytesLE, bytesLE_length]
    rw [show (2 : Nat) ^ (8 * 8) = 18446744073709551616 by norm_num]
    split_ifs with hc
    · omega
    · omega
  rw [hval]

theorem loadLoop_serialized :
    ∀ (items : List ScoreEntry) (m : List (List Nat × ScoreEntry)),
      (∀ e ∈ items, 0 ∉ e.fn ∧ 0 ∉ e.winner ∧
        -(2 ^ 63) ≤ e.value ∧ e.value < 2 ^ 63 ∧ -(2 ^ 63) ≤ e.ts ∧ e.ts < 2 ^ 63) →
      loadLoop items.length (items.foldr (fun e acc => entryBytes e ++ acc) []) m =
        items.foldl (fun acc e => dictInsert acc (lowerBytes e.fn) e) m := by
  intro items
  induction items with
  | nil =>
    intro m _
    rfl
  | cons e rest ih =>
    intro m h
    obtain ⟨hfn, hw, hv1, hv2, ht1, ht2⟩ := h e (List.mem_cons_self _ _)
    have hfn2 : ∀ b ∈ e.fn, b ≠ 0 := fun b hb hb0 => hfn (hb0 ▸ hb)
    have hw2 : ∀ b ∈ e.winner, b ≠ 0 := fun b hb hb0 => hw (hb0 ▸ hb)
    have hassoc : entryBytes e ++ rest.foldr (fun e acc => entryBytes e ++ acc) [] =
        e.fn ++ 0 :: (e.winner ++ 0 :: (pack_i64 e.value ++ (pack_i64 e.ts ++
          rest.foldr (fun e acc => entryBytes e ++ acc) []))) := by
      simp [entryBytes, write_cstring]
    have hr1 := readCString_append e.fn (e.winner ++ 0 :: (pack_i64 e.value ++
      (pack_i64 e.ts ++ rest.foldr (fun e acc => entryBytes e ++ acc) []))) hfn2
    have hr2 := readCString_append e.winner (pack_i64 e.value ++
      (pack_i64 e.ts ++ rest.foldr (fun e acc => entryBytes e ++ acc) [])) hw2
    have hr3 := readI64_append e.value
      (pack_i64 e.ts ++ rest.foldr (fun e acc => entryBytes e ++ acc) []) hv1 hv2
    have hr4 := readI64_append e.ts
      (rest.foldr (fun e acc => entryBytes e ++ acc) []) ht1 ht2
    simp only [List.foldr_cons, List.length_cons, List.foldl_cons, loadLoop,
      hassoc, hr1, hr2, hr3, hr4]
    exact ih (dictInsert m (lowerBytes e.fn) e)
      (fun e2 h2 => h e2 (List.mem_cons_of_mem _ h2))

theorem foldl_dictInsert_eq_append :
    ∀ (items : List ScoreEntry) (m : List (List Nat × ScoreEntry)),
      ((items.map (fun e => lowerBytes e.fn)).Nodup) →
      (∀ e ∈ items, lowerBytes e.fn ∉ m.map Prod.fst) →
      items.foldl (fun acc e => dictInsert acc (lowerBytes e.fn) e) m =
        m ++ items.map (fun e => (lowerBytes e.fn, e)) := by
  intro items
  induction items with
  | nil =>
    intro m _ _
    simp
  | cons e rest ih =>
    intro m hnodup hfresh
    simp only [List.map_cons, List.nodup_cons] at hnodup
    simp only [List.foldl_cons, List.map_cons]
    rw [dictInsert_fresh m _ e (hfresh e (List.mem_cons_self _ _))]
    rw [ih (m ++ [(lowerBytes e.fn, e)]) hnodup.2 (fun e2 h2 => by
      rw [List.map_append, List.mem_append]
      rintro (hin | hin)
      · exact hfresh e2 (List.mem_cons_of_mem _ h2) hin
      · simp only [List.map_cons, List.map_nil, List.mem_singleton] at hin
        exact hnodup.1 (hin ▸ List.mem_map.mpr ⟨e2, h2, rfl⟩))]
    rw [List.append_assoc]
    rfl

/-- C5 counterexample: the claim fails as stated.  A `ScoreEntry` whose
filename is the one-character string `"\x00"` cannot survive the
null-terminated encoding: reading the written file back yields an entry
with an empty filename, so the read-back set differs from the written
set. -/
theorem score_roundtrip_C5_counterexample :
    ¬ ((load_highscores (write_from_map [([0], ⟨[0], [65], 1, 0⟩)])).map
        Prod.snd).Perm ([([0], ⟨[0], [65], 1, 0⟩)].map Prod.snd) := by
  decide

/-- C5 (amended): writing a score map and reading the file back is the
identity up to the canonical lowercase-filename sort imposed on write,
provided the entries are representable in the format: filenames and
winners contain no NUL byte (the cstring encoding cannot carry one),
values and timestamps lie in the signed 64-bit range (`struct.pack`'s
domain), lowercased filenames are pairwise distinct (the ScoreFile
invariant; the reader keys its dict by lowercased filename), and the
entry count fits in the u32 count field.  The read-back map is exactly
the sorted entries keyed by lowercased filename, and its entries are a
permutation of the written ones. -/
theorem score_roundtrip_C5 (entries : List (List Nat × ScoreEntry))
    (hstr : ∀ e ∈ entries.map Prod.snd, 0 ∉ e.fn ∧ 0 ∉ e.winner)
    (hrange : ∀ e ∈ entries.map Prod.snd, -(2 ^ 63) ≤ e.value ∧ e.value < 2 ^ 63 ∧
      -(2 ^ 63) ≤ e.ts ∧ e.ts < 2 ^ 63)
    (hkeys : ((entries.map Prod.snd).map (fun e => lowerBytes e.fn)).Nodup)
    (hcount : entries.length < 4294967296) :
    load_highscores (write_from_map entries) =
      (sortByKey (entries.map Prod.snd)).map (fun e => (lowerBytes e.fn, e)) ∧
    ((load_highscores (write_from_map entries)).map Prod.snd).Perm
      (entries.map Prod.snd) := by
  have hperm := sortByKey_perm (entries.map Prod.snd)
  have hsortlen : (sortByKey (entries.map Prod.snd)).length = entries.length := by
    rw [hperm.length_eq, List.length_map]
  have h1 : readU32 (write_from_map entries) =
      (2, pack_u32 (sortByKey (entries.map Prod.snd)).length ++
        (sortByKey (entries.map Prod.snd)).foldr (fun e acc => entryBytes e ++ acc) []) := by
    unfold write_from_map
    rw [List.append_assoc]
    exact readU32_append 2 _ (by norm_num)
  have h2 : readU32 (pack_u32 (sortByKey (entries.map Prod.snd)).length ++
      (sortByKey (entries.map Prod.snd)).foldr (fun e acc => entryBytes e ++ acc) []) =
      ((sortByKey (entries.map Prod.snd)).length,
        (sortByKey (entries.map Prod.snd)).foldr (fun e acc => entryBytes e ++ acc) []) :=
    readU32_append _ _ (by rw [hsortlen]; exact hcount)
  have hload : load_highscores (write_from_map entries) =
      loadLoop (sortByKey (entries.map Prod.snd)).length
        ((sortByKey (entries.map Prod.snd)).foldr (fun e acc => entryBytes e ++ acc) [])
        [] := by
    unfold load_highscores
    rw [h1]
    simp only []
    rw [h2]
  have hcond : ∀ e ∈ sortByKey (entries.map Prod.snd), 0 ∉ e.fn ∧ 0 ∉ e.winner ∧
      -(2 ^ 63) ≤ e.value ∧ e.value < 2 ^ 63 ∧ -(2 ^ 63) ≤ e.ts ∧ e.ts < 2 ^ 63 := by
    intro e he
    have hmem := hperm.mem_iff.mp he
    obtain ⟨ha, hb⟩ := hstr e hmem
    obtain ⟨hc, hd, hee, hf⟩ := hrange e hmem
    exact ⟨ha, hb, hc, hd, hee, hf⟩
  have hkeys2 : ((sortByKey (entries.map Prod.snd)).map
      (fun e => lowerBytes e.fn)).Nodup :=
    ((hperm.map (fun e => lowerBytes e.fn)).nodup_iff).mpr hkeys
  have hmain : load_highscores (write_from_map entries) =
      (sortByKey (entries.map Prod.snd)).map (fun e => (lowerBytes e.fn, e)) := by
    rw [hload, loadLoop_serialized _ [] hcond,
      foldl_dictInsert_eq_append _ [] hkeys2 (by simp)]
    rfl
  refine ⟨hmain, ?_⟩
  rw [hmain]
  have hsnd : ((sortByKey (entries.map Prod.snd)).map
      (fun e => (lowerBytes e.fn, e))).map Prod.snd = sortByKey (entries.map Prod.snd) := by
    rw [List.map_map]
    exact List.map_id _
  rw [hsnd]
  exact hperm

/-- Witness for C5 on a concrete two-entry map (out-of-order filenames
`"b"` and `"A"`): reading the written file back gives the sorted keyed
entries, a permutation of the originals. -/
theorem score_roundtrip_C5_witness :
    load_highscores (write_from_map
        [([98], ⟨[98], [66], 2, 0⟩), ([97], ⟨[65], [67], 3, 1⟩)]) =
      (sortByKey ([([98], ⟨[98], [66], 2, 0⟩),
        ([97], ⟨[65], [67], 3, 1⟩)].map Prod.snd)).map
        (fun e => (lowerBytes e.fn, e)) ∧
    ((load_highscores (write_from_map
        [([98], ⟨[98], [66], 2, 0⟩), ([97], ⟨[65], [67], 3, 1⟩)])).map
      Prod.snd).Perm
      ([([98], ⟨[98], [66], 2, 0⟩), ([97], ⟨[65], [67], 3, 1⟩)].map Prod.snd) :=
  score_roundtrip_C5 [([98], ⟨[98], [66], 2, 0⟩), ([97], ⟨[65], [67], 3, 1⟩)]
    (by decide) (by decide) (by decide) (by decide)

end RctProgress
